import Mathlib

/-!
Verification of the seo-crawler core against its specification.

The development shallowly embeds the Python source of the repository:

* `engine._normalize_url` / `engine._normalize_domain` (URL deduplication keys),
  together with a faithful model of `urllib.parse.urlparse` restricted to the
  ASCII fragment the crawler manipulates;
* `analyzer._analyze_title`, `analyzer._analyze_placeholders`,
  `analyzer._calculate_score` and the fixed issue-severity tables;
* `robots.RobotsParser._parse` / `is_allowed`;
* the crawl summary aggregation of `routes.get_crawl_summary`
  (duplicate-title groups and the severity counters);
* the state-transforming part of `engine.CrawlEngine._crawl_page` and
  `_enqueue` (records, queue, visited set and page counter).

HTML parsing (BeautifulSoup), HTTP transport and `urljoin` are external
libraries; where a claim does not depend on them they appear as explicit
parameters of the embedded functions.  Machine strings are `List Char` with
an ASCII model of Python's `str.lower`.
-/

/-- Model of Python `str.lower` on one character, restricted to ASCII
(the crawler only manipulates ASCII URL syntax). -/
def pyLower (c : Char) : Char :=
  if 65 ≤ c.toNat ∧ c.toNat ≤ 90 then Char.ofNat (c.toNat + 32) else c

/-- Model of Python `str.lower` on a string, as a character list. -/
def lowerL (l : List Char) : List Char := l.map pyLower

/-- ASCII letter test: model of Python `c.isascii() and c.isalpha()`. -/
def isAsciiAlpha (c : Char) : Bool := (65 ≤ c.toNat ∧ c.toNat ≤ 90) ∨ (97 ≤ c.toNat ∧ c.toNat ≤ 122)

/-- Characters allowed in a URL scheme after the first letter, i.e. Python
`urllib.parse.scheme_chars` (letters, digits, `+`, `-`, `.`). -/
def schemeChar (c : Char) : Bool :=
  isAsciiAlpha c ∨ (48 ≤ c.toNat ∧ c.toNat ≤ 57) ∨ c = '+' ∨ c = '-' ∨ c = '.'

/-- Split a character list at the first character satisfying `p`:
`some (before, after)` with the splitting character dropped, or `none`. -/
def splitFirst (p : Char → Bool) : List Char → Option (List Char × List Char)
  | [] => none
  | c :: cs =>
    if p c then some ([], cs)
    else (splitFirst p cs).map (fun x => (c :: x.1, x.2))

/-- The result of Python's `urlparse` as used by the crawler. -/
structure ParseResult where
  scheme : List Char
  netloc : List Char
  path : List Char
  query : List Char
  fragment : List Char
deriving DecidableEq, Repr

/-- `urlsplit` first removes `"\t\r\n"` everywhere and strips leading
C0-control/space characters. -/
def preClean (l : List Char) : List Char :=
  (l.dropWhile (fun c => c.toNat ≤ 32)).filter (fun c => ¬(c = '\t' ∨ c = '\r' ∨ c = '\n'))

/-- The scheme parse step of `urlsplit`: split at the first `':'` when
everything before it is a valid scheme; the scheme is lowercased. -/
def schemeSplit (l : List Char) : Option (List Char × List Char) :=
  match splitFirst (fun c => c = ':') l with
  | none => none
  | some (before, after) =>
    match before with
    | [] => none
    | c :: rest =>
      if isAsciiAlpha c ∧ rest.all schemeChar then some (lowerL (c :: rest), after)
      else none

def netlocDelim (c : Char) : Bool := c = '/' ∨ c = '?' ∨ c = '#'

/-- `if d in url: url, rest = url.split(d, 1)`: split at the first matching
character when there is one, else keep the whole string. -/
def noneStage (p : Char → Bool) (m : List Char) : List Char × List Char :=
  match splitFirst p m with
  | some x => x
  | none => (m, [])

/-- Model of Python `urllib.parse.urlsplit` (ASCII; IPv6-bracket validation
and the WHATWG host check, which only raise errors, are omitted). -/
def urlsplitL (url0 : List Char) : ParseResult :=
  let url1 := preClean url0
  let p1 := match schemeSplit url1 with
    | some x => x
    | none => ([], url1)
  let p2 := if p1.2.take 2 = ['/', '/'] then
      ((p1.2.drop 2).takeWhile (fun c => ¬netlocDelim c),
       (p1.2.drop 2).dropWhile (fun c => ¬netlocDelim c))
    else ([], p1.2)
  let p3 := noneStage (fun c => c = '#') p2.2
  let p4 := noneStage (fun c => c = '?') p3.1
  ⟨p1.1, p2.1, p4.1, p4.2, p3.2⟩

/-- Python `urllib.parse.uses_params`. -/
def usesParams : List (List Char) :=
  ["", "ftp", "hdl", "prospero", "http", "imap", "https", "shttp", "rtsp",
   "rtspu", "sip", "sips", "mms", "sftp", "tel"].map String.data

/-- Split a list at its last `'/'`: `some (before, after)` with `'/' ∉ after`. -/
def splitLastSlash (l : List Char) : Option (List Char × List Char) :=
  match splitFirst (fun c => c = '/') l.reverse with
  | some (rb, ra) => some (ra.reverse, rb.reverse)
  | none => none

/-- The path part of Python `urllib.parse._splitparams` (the url with the
`;params` suffix of its last segment removed).  Only reached when the path
contains `';'`. -/
def splitparams (l : List Char) : List Char :=
  match splitLastSlash l with
  | some (a, b) =>
    match splitFirst (fun c => c = ';') b with
    | some (c, _) => a ++ '/' :: c
    | none => l
  | none =>
    match splitFirst (fun c => c = ';') l with
    | some (c, _) => c
    | none => l

/-- Model of Python `urllib.parse.urlparse` (ASCII). -/
def urlparseL (url0 : List Char) : ParseResult :=
  let r := urlsplitL url0
  if usesParams.contains r.scheme ∧ r.path.contains ';' then
    { r with path := splitparams r.path }
  else r

/-- Python `str.removeprefix` on character lists. -/
def removePrefixL (p l : List Char) : List Char :=
  if p.isPrefixOf l then l.drop p.length else l

/-- Python `str.rstrip("/")`: drop every trailing `'/'`. -/
def rstripSlash (l : List Char) : List Char :=
  (l.reverse.dropWhile (fun c => c = '/')).reverse

/-- `engine._normalize_url`: the deduplication key.  Translates
`urlparse(url.lower())` and `f"{scheme}://{netloc}{path}"` with `netloc`
www-stripped and `path` slash-rstripped. -/
def _normalize_url (url : String) : String :=
  let parsed := urlparseL (lowerL url.data)
  let netloc := removePrefixL "www.".data parsed.netloc
  let path := rstripSlash parsed.path
  String.mk (parsed.scheme ++ "://".data ++ netloc ++ path)

/-- `engine._normalize_domain`: lowercase and strip a leading `www.`. -/
def _normalize_domain (netloc : String) : String :=
  String.mk (removePrefixL "www.".data (lowerL netloc.data))

/-- One entry of an analyzer `issues` list: `{"severity": ..., "type": ...}`
(the human-readable `message` never influences control flow and is omitted). -/
structure Issue where
  severity : String
  itype : String
deriving DecidableEq, Repr

/-- `analyzer._calculate_score`: start at 100, subtract 15/7/2 per
critical/warning/info issue, then clamp with `max(0, min(100, score))`. -/
def _calculate_score (issues : List Issue) : Int :=
  let score := issues.foldl (fun s i =>
    if i.severity = "critical" then s - 15
    else if i.severity = "warning" then s - 7
    else if i.severity = "info" then s - 2
    else s) 100
  max 0 (min 100 score)

/-- `analyzer._analyze_title`, at the level of the extracted title.
`title` is `get_text(strip=True)` of the first `<title>` tag (`none` when the
tag is absent); `not title` in Python is true for `none` and `""`. -/
def _analyze_title (title : Option String) : List Issue :=
  if title = none ∨ title = some "" then [⟨"critical", "missing_title"⟩]
  else if (title.getD "").length < 30 then [⟨"warning", "short_title"⟩]
  else if (title.getD "").length > 60 then [⟨"warning", "long_title"⟩]
  else []

/-- `title_length` as computed by `_analyze_title`:
`len(title) if title else 0`. -/
def title_length (title : Option String) : Nat :=
  if title = none ∨ title = some "" then 0 else (title.getD "").length

/-- Python `\s` on ASCII text (`re` whitespace class). -/
def isPyWs (c : Char) : Bool :=
  c = ' ' ∨ c = '\t' ∨ c = '\n' ∨ c = '\r' ∨ c = '\x0b' ∨ c = '\x0c'

/-- Match a literal pattern at the head of `s`; `ci` selects the
case-insensitive comparison of `re.IGNORECASE`. -/
def matchLit (ci : Bool) : List Char → List Char → Option (List Char)
  | [], s => some s
  | _ :: _, [] => none
  | p :: ps, c :: cs =>
    if (if ci then pyLower c = pyLower p else c = p) then matchLit ci ps cs else none

/-- Match `\s+` at the head of `s` (greedy: the following literal is never
whitespace, so maximal munch is equivalent to the regex semantics). -/
def matchWsPlus : List Char → Option (List Char)
  | [] => none
  | c :: cs => if isPyWs c then some (cs.dropWhile isPyWs) else none

/-- Match a single `\s` at the head of `s`. -/
def matchWsOne : List Char → Option (List Char)
  | [] => none
  | c :: cs => if isPyWs c then some cs else none

/-- `lorem\s+ipsum` at the head of `s` (case-insensitive). -/
def loremAt (s : List Char) : Bool :=
  (((matchLit true "lorem".data s).bind matchWsPlus).bind (matchLit true "ipsum".data)).isSome

/-- `dolor\s+sit\s+amet` at the head of `s` (case-insensitive). -/
def dolorAt (s : List Char) : Bool :=
  (((((matchLit true "dolor".data s).bind matchWsPlus).bind
    (matchLit true "sit".data)).bind matchWsPlus).bind (matchLit true "amet".data)).isSome

/-- `consectetur\s+adipiscing` at the head of `s` (case-insensitive). -/
def consecteturAt (s : List Char) : Bool :=
  (((matchLit true "consectetur".data s).bind matchWsPlus).bind
    (matchLit true "adipiscing".data)).isSome

/-- `TODO:\s` at the head of `s` (case-sensitive). -/
def todoAt (s : List Char) : Bool :=
  ((matchLit false "TODO:".data s).bind matchWsOne).isSome

/-- `FIXME:\s` at the head of `s` (case-sensitive). -/
def fixmeAt (s : List Char) : Bool :=
  ((matchLit false "FIXME:".data s).bind matchWsOne).isSome

/-- `PLACEHOLDER_RE` (the `re.IGNORECASE` alternation) matches at the head. -/
def looseHitAt (s : List Char) : Bool := loremAt s ∨ dolorAt s ∨ consecteturAt s

/-- `PLACEHOLDER_STRICT_RE` (no `re.IGNORECASE`) matches at the head. -/
def strictHitAt (s : List Char) : Bool := todoAt s ∨ fixmeAt s

/-- `f` holds at the head of some suffix of `l`
(`re.finditer` finds at least one match). -/
def anySuffix (f : List Char → Bool) : List Char → Bool
  | [] => f []
  | c :: cs => f (c :: cs) ∨ anySuffix f cs

/-- The `found` list of `_analyze_placeholders` is non-empty: one of the two
compiled patterns matches somewhere in the script/style-stripped page text. -/
def has_placeholder_hit (text : String) : Bool :=
  anySuffix looseHitAt text.data ∨ anySuffix strictHitAt text.data

/-- `analyzer._analyze_placeholders`, at the level of the issue list it
appends: a single critical `placeholder_content` issue exactly when `found`
is non-empty. -/
def _analyze_placeholders (text : String) : List Issue :=
  if has_placeholder_hit text then [⟨"critical", "placeholder_content"⟩] else []

/-- Every `(type, severity)` pair appearing at an `issues.append` site of
`analyzer.SEOAnalyzer`, in source order. -/
def analyzer_severities : List (String × String) :=
  [("missing_title", "critical"), ("short_title", "warning"), ("long_title", "warning"),
   ("missing_meta_description", "critical"), ("short_meta_description", "warning"),
   ("long_meta_description", "warning"),
   ("missing_canonical", "warning"), ("canonical_external", "warning"),
   ("canonical_relative", "info"),
   ("noindex", "warning"), ("nofollow_meta", "warning"),
   ("missing_h1", "critical"), ("multiple_h1", "warning"),
   ("images_missing_alt", "warning"), ("images_empty_alt", "warning"),
   ("role_img_missing_label", "warning"), ("svg_missing_title", "info"),
   ("nofollow_internal", "warning"),
   ("no_schema_markup", "info"),
   ("missing_viewport", "critical"),
   ("thin_content", "warning"),
   ("missing_og_title", "info"), ("missing_og_image", "info"),
   ("no_lazy_loading", "info"),
   ("hreflang_issue", "warning"),
   ("low_text_ratio", "warning"), ("high_text_ratio", "info"),
   ("placeholder_content", "critical")]

/-- The `severity_map` of `routes.get_crawl_summary`, in source order. -/
def severity_map : List (String × String) :=
  [("missing_title", "critical"), ("missing_meta_description", "critical"),
   ("missing_h1", "critical"), ("missing_viewport", "critical"),
   ("placeholder_content", "critical"), ("http_error", "critical"),
   ("noindex", "warning"), ("nofollow_meta", "warning"),
   ("short_title", "warning"), ("long_title", "warning"),
   ("short_meta_description", "warning"), ("long_meta_description", "warning"),
   ("missing_canonical", "warning"), ("canonical_external", "warning"),
   ("canonical_mismatch", "warning"), ("canonical_relative", "warning"),
   ("images_missing_alt", "warning"), ("images_empty_alt", "warning"),
   ("thin_content", "warning"), ("low_text_ratio", "warning"),
   ("multiple_h1", "warning"), ("nofollow_internal", "warning"),
   ("hreflang_issue", "warning"), ("slow_response", "warning"),
   ("redirect", "info"),
   ("no_schema_markup", "info"), ("no_lazy_loading", "info"),
   ("missing_og_title", "info"), ("missing_og_description", "info"),
   ("missing_og_image", "info"), ("high_text_ratio", "info")]

/-- First-match association lookup (Python `dict` access on these literal
tables, whose keys are pairwise distinct). -/
def lookupSev (m : List (String × String)) (t : String) : Option String :=
  match m.find? (fun e => e.1 = t) with
  | some e => some e.2
  | none => none

/-- Python `str.strip()` whitespace (ASCII part). -/
def isPyStripWs (c : Char) : Bool :=
  c = ' ' ∨ c = '\t' ∨ c = '\n' ∨ c = '\r' ∨ c = '\x0b' ∨ c = '\x0c'

/-- Python `str.strip()` on a character list. -/
def stripL (l : List Char) : List Char :=
  ((l.dropWhile isPyStripWs).reverse.dropWhile isPyStripWs).reverse

/-- Python `str.splitlines()` restricted to `\n`, `\r` and `\r\n`
(the line boundaries a robots.txt file uses). -/
def splitLinesAux : List Char → List Char → List (List Char)
  | acc, [] => [acc.reverse]
  | acc, '\r' :: '\n' :: rest => acc.reverse :: (if rest = [] then [] else splitLinesAux [] rest)
  | acc, '\n' :: rest => acc.reverse :: (if rest = [] then [] else splitLinesAux [] rest)
  | acc, '\r' :: rest => acc.reverse :: (if rest = [] then [] else splitLinesAux [] rest)
  | acc, c :: rest => splitLinesAux (c :: acc) rest

def splitLinesL : List Char → List (List Char)
  | [] => []
  | l => splitLinesAux [] l

/-- One `{"allow": [...], "disallow": [...]}` value of
`RobotsParser._agent_rules`. -/
structure AgentRule where
  allow : List String
  disallow : List String
deriving DecidableEq, Repr

/-- The mutable state of `RobotsParser._parse`: the current user-agent block,
the per-agent rule map (an insertion-ordered association list), the flat
`disallowed` list for the crawler itself, and the `Sitemap:` directives. -/
structure RobotsState where
  currentAgents : List String
  agentRules : List (String × AgentRule)
  disallowed : List String
  sitemaps : List String
deriving DecidableEq, Repr

def RobotsState.init : RobotsState := ⟨[], [], [], []⟩

def assocContains (m : List (String × AgentRule)) (k : String) : Bool :=
  m.any (fun e => e.1 = k)

def assocFind (m : List (String × AgentRule)) (k : String) : Option AgentRule :=
  match m.find? (fun e => e.1 = k) with
  | some e => some e.2
  | none => none

/-- `if agent_key not in self._agent_rules: self._agent_rules[agent_key] = {...}` -/
def ensureKey (m : List (String × AgentRule)) (k : String) : List (String × AgentRule) :=
  if assocContains m k then m else m ++ [(k, ⟨[], []⟩)]

def assocModify (m : List (String × AgentRule)) (k : String) (f : AgentRule → AgentRule) :
    List (String × AgentRule) :=
  m.map (fun e => if e.1 = k then (e.1, f e.2) else e)

/-- Python `str.lower` on a `String`. -/
def pyLowerS (s : String) : String := String.mk (lowerL s.data)

/-- One iteration of the `for line in content.splitlines()` loop of
`RobotsParser._parse`. -/
def processLine (st : RobotsState) (line : List Char) : RobotsState :=
  let l := stripL line
  if l.take 1 = ['#'] ∨ l = [] then st
  else match splitFirst (fun c => c = ':') l with
  | none => st
  | some (k, v) =>
    let key := pyLowerS (String.mk (stripL k))
    let value := String.mk (stripL v)
    if key = "user-agent" then
      let reset := st.currentAgents = [] ∨
        (st.currentAgents ≠ [] ∧
          assocContains st.agentRules (pyLowerS (st.currentAgents.getLast? |>.getD "")))
      let ca := (if reset then [] else st.currentAgents) ++ [value]
      { st with currentAgents := ca, agentRules := ensureKey st.agentRules (pyLowerS value) }
    else if key = "disallow" ∧ st.currentAgents ≠ [] then
      let rules := st.currentAgents.foldl (fun m a =>
        let m := ensureKey m (pyLowerS a)
        if value ≠ "" then assocModify m (pyLowerS a) (fun r => { r with disallow := r.disallow ++ [value] })
        else m) st.agentRules
      let dis := if (st.currentAgents.any (fun a => a = "*" ∨ a = "SEOCrawlerBot")) ∧ value ≠ ""
        then st.disallowed ++ [value] else st.disallowed
      { st with agentRules := rules, disallowed := dis }
    else if key = "allow" ∧ st.currentAgents ≠ [] then
      let rules := st.currentAgents.foldl (fun m a =>
        let m := ensureKey m (pyLowerS a)
        if value ≠ "" then assocModify m (pyLowerS a) (fun r => { r with allow := r.allow ++ [value] })
        else m) st.agentRules
      { st with agentRules := rules }
    else if key = "sitemap" then
      { st with sitemaps := st.sitemaps ++ [value] }
    else st

/-- `RobotsParser._parse` over an explicit list of lines. -/
def parseLines (lines : List (List Char)) : RobotsState :=
  lines.foldl processLine RobotsState.init

/-- `RobotsParser._parse` on the robots.txt body. -/
def robots_parse (content : String) : RobotsState :=
  parseLines (splitLinesL content.data)

/-- `RobotsParser.is_allowed`: the URL's path must start with no pattern of
`self.disallowed`. -/
def is_allowed (st : RobotsState) (url : String) : Bool :=
  let path := (urlparseL url.data).path
  st.disallowed.all (fun pat => ¬ pat.data.isPrefixOf path)

/-- Modelled from the spec (§4.3 and C3): the allow patterns applicable to the
crawler itself, read from the `*` and `SEOCrawlerBot` groups. -/
def crawler_allow_patterns (st : RobotsState) : List String :=
  ((assocFind st.agentRules "*").map AgentRule.allow).getD [] ++
  ((assocFind st.agentRules "seocrawlerbot").map AgentRule.allow).getD []

/-- Modelled from the spec's words, for comparison with `is_allowed`: a path
is disallowed if it starts with a disallow pattern that no longer-prefix
allow pattern overrides; empty disallow means allow everything. -/
def is_allowed_spec (st : RobotsState) (url : String) : Bool :=
  let path := (urlparseL url.data).path
  ¬ st.disallowed.any (fun d => d.data.isPrefixOf path ∧
      ¬ (crawler_allow_patterns st).any (fun a => a.data.isPrefixOf path ∧ d.data.length < a.data.length))

/-- The action of `processLine` on the observable pair
(current user-agent block, crawler disallow list), valid for states
satisfying the parser invariant (every current agent has a rules entry, so a
`User-agent:` line always starts a fresh block). -/
def obsStep (ca dis : List String) (line : List Char) : List String × List String :=
  let l := stripL line
  if l.take 1 = ['#'] ∨ l = [] then (ca, dis)
  else match splitFirst (fun c => c = ':') l with
  | none => (ca, dis)
  | some (k, v) =>
    let key := pyLowerS (String.mk (stripL k))
    let value := String.mk (stripL v)
    if key = "user-agent" then ([value], dis)
    else if key = "disallow" ∧ ca ≠ [] then
      (ca, if (ca.any (fun a => a = "*" ∨ a = "SEOCrawlerBot")) ∧ value ≠ ""
        then dis ++ [value] else dis)
    else (ca, dis)

/-- `obsStep` folded over a line list. -/
def obsFold (p : List String × List String) (lines : List (List Char)) :
    List String × List String :=
  lines.foldl (fun p line => obsStep p.1 p.2 line) p

/-- The columns of a stored `Page` row read by `routes.get_crawl_summary`
that the aggregation claims depend on. -/
structure PageRow where
  id : Nat
  url : String
  status_code : Option Nat
  title : Option String
  meta_description : Option String
  issues : List Issue
deriving DecidableEq, Repr

/-- `content_pages`: `(p.status_code or 0) >= 200 and (p.status_code or 0) < 300`. -/
def content_pages (ps : List PageRow) : List PageRow :=
  ps.filter (fun p => 200 ≤ p.status_code.getD 0 ∧ p.status_code.getD 0 < 300)

/-- The `critical` counter of `get_crawl_summary`: one per issue with
severity `"critical"` over all content pages. -/
def summary_critical_count (ps : List PageRow) : Nat :=
  (content_pages ps).foldl (fun acc p => acc + p.issues.countP (fun i => i.severity = "critical")) 0

/-- One entry of the summary's `duplicate_titles` list
(`DuplicateGroup(value=..., pages=..., count=...)`, a page given as
`{"url": ..., "page_id": ...}`). -/
structure DuplicateGroup where
  value : String
  pages : List (String × Nat)
  count : Nat
deriving DecidableEq, Repr

/-- The keys of the `title_groups` defaultdict in insertion order: the first
occurrence of each truthy (non-empty) title among the content pages. -/
def firstOccs : List String → List String → List String
  | _, [] => []
  | seen, t :: ts => if t ∈ seen then firstOccs seen ts else t :: firstOccs (t :: seen) ts

/-- The truthy titles of the content pages, in page order
(`if p.title:` skips `None` and `""`). -/
def truthyTitles (cps : List PageRow) : List String :=
  cps.filterMap (fun p => match p.title with
    | some t => if t = "" then none else some t
    | none => none)

/-- The pages grouped under title `t` (in page order, as the defaultdict
appends them). -/
def pagesWithTitle (cps : List PageRow) (t : String) : List PageRow :=
  cps.filter (fun p => p.title = some t)

/-- The `duplicate_titles` list of `get_crawl_summary`: every title group of
the content pages with more than one member. -/
def duplicate_titles (ps : List PageRow) : List DuplicateGroup :=
  let cps := content_pages ps
  (firstOccs [] (truthyTitles cps)).filterMap (fun t =>
    let g := pagesWithTitle cps t
    if g.length > 1 then some ⟨t, g.map (fun p => (p.url, p.id)), g.length⟩ else none)

/-- The fields of a saved Page record (`engine._save_page` keyword set)
that the orchestrator claims observe. -/
structure SavedPage where
  url : String
  status_code : Nat
  content_length : Nat
  title : Option String
  title_length : Nat
  meta_description : Option String
  meta_description_length : Nat
  canonical_url : Option String
  robots_meta : Option String
  is_noindex : Bool
  is_nofollow_meta : Bool
  h1_count : Nat
  h2_count : Nat
  total_images : Nat
  images_without_alt : Nat
  internal_links : Nat
  external_links : Nat
  nofollow_links : Nat
  has_schema_markup : Bool
  has_viewport_meta : Bool
  word_count : Nat
  has_lazy_loading : Bool
  has_hreflang : Bool
  has_placeholders : Bool
  issues : List Issue
  score : Int
deriving DecidableEq, Repr

/-- The `error_result` dict that `_crawl_page` saves for a 4xx/5xx final
status: every signal at its neutral default, no issues, score 0. -/
def error_record (finalUrl : String) (status : Nat) (contentLength : Nat) : SavedPage :=
  { url := finalUrl, status_code := status, content_length := contentLength,
    title := none, title_length := 0,
    meta_description := none, meta_description_length := 0,
    canonical_url := none, robots_meta := none,
    is_noindex := false, is_nofollow_meta := false,
    h1_count := 0, h2_count := 0,
    total_images := 0, images_without_alt := 0,
    internal_links := 0, external_links := 0, nofollow_links := 0,
    has_schema_markup := false, has_viewport_meta := false,
    word_count := 0, has_lazy_loading := false,
    has_hreflang := false, has_placeholders := false,
    issues := [], score := 0 }

/-- A fetched HTTP response as `_crawl_page` observes it: final URL, final
status, the redirect `history` (status codes of the hops), headers. -/
structure Response where
  finalUrl : String
  status : Nat
  history : List Nat
  contentType : String
  contentLength : Nat

/-- The shared mutable state one `_crawl_page` call can change: saved
records, the URL queue, the normalized visited set and the page counter. -/
structure CrawlState where
  records : List SavedPage
  queue : List String
  visited : List String
  pageCount : Nat
deriving DecidableEq, Repr

/-- The engine configuration relevant here: `self._base_domain` (already
normalized in `__init__`) and `MAX_PAGES`. -/
structure EngineCfg where
  baseDomain : String
  maxPages : Nat

/-- `CrawlEngine._SKIP_EXTENSIONS`. -/
def skipExtensions : List String :=
  [".json", ".xml", ".rss", ".atom", ".rdf",
   ".css", ".js", ".mjs", ".ts", ".map",
   ".pdf", ".doc", ".docx", ".xls", ".xlsx", ".ppt", ".pptx",
   ".zip", ".gz", ".tar", ".rar", ".7z", ".bz2",
   ".jpg", ".jpeg", ".png", ".gif", ".svg", ".webp", ".ico", ".bmp", ".tiff", ".avif",
   ".woff", ".woff2", ".ttf", ".eot", ".otf",
   ".mp3", ".mp4", ".avi", ".mov", ".wmv", ".flv", ".webm", ".ogg", ".wav",
   ".exe", ".dmg", ".apk", ".ics", ".vcf", ".csv", ".txt", ".log"]

/-- `CrawlEngine._SKIP_PATH_PREFIXES`. -/
def skipPathStarts : List String :=
  ["/wp-json/", "/wp-json", "/feed/", "/feed", "/xmlrpc.php", "/wp-admin/", "/api/", "/_api/"]

/-- `path[dot_pos:]` for the last `'.'` of the path, or `none`. -/
def lastDotSuffix (l : List Char) : Option (List Char) :=
  match splitFirst (fun c => c = '.') l.reverse with
  | some (rb, _) => some ('.' :: rb.reverse)
  | none => none

/-- `CrawlEngine._should_skip_url`. -/
def _should_skip_url (url : String) : Bool :=
  let path := lowerL (urlparseL url.data).path
  (match lastDotSuffix path with
   | some ext => skipExtensions.any (fun e => e.data = ext)
   | none => false) ||
  skipPathStarts.any (fun pre => pre.data.isPrefixOf path)

/-- `CrawlEngine._is_visited`. -/
def _is_visited (st : CrawlState) (url : String) : Bool :=
  st.visited.contains (_normalize_url url)

/-- `CrawlEngine._mark_visited` (set insertion, modelled on a list). -/
def _mark_visited (st : CrawlState) (url : String) : CrawlState :=
  if st.visited.contains (_normalize_url url) then st
  else { st with visited := st.visited ++ [_normalize_url url] }

/-- `CrawlEngine._enqueue`. -/
def _enqueue (cfg : EngineCfg) (st : CrawlState) (url : String) : CrawlState :=
  if ¬ _is_visited st url ∧ st.pageCount < cfg.maxPages then
    if _normalize_domain (String.mk (urlparseL url.data).netloc) = cfg.baseDomain then
      if _should_skip_url url then st
      else { st with queue := st.queue ++ [url] }
    else st
  else st

/-- `full_url.split("#")[0]` / `.split("?")[0]`. -/
def dropAfter (c : Char) (s : String) : String :=
  match splitFirst (fun x => x = c) s.data with
  | some (a, _) => String.mk a
  | none => s

/-- `"text/html" in content_type`. -/
def containsHtml (contentType : String) : Bool :=
  anySuffix (fun s => "text/html".data.isPrefixOf s) contentType.data

/-- `CrawlEngine._crawl_page`, as a transformer of the shared crawl state.

The pieces computed by external libraries are parameters: `urljoinF` stands
for `urllib.parse.urljoin`, `analysisResult` for the record returned by
`SEOAnalyzer(final_url, html, status, time).analyze()`, and `rawHrefs` for
the `found_hrefs` extracted from the final page's DOM by BeautifulSoup.
The transport failure branch (`httpx.RequestError`: return with no change)
is the identity and is not modelled separately. -/
def _crawl_page (cfg : EngineCfg) (urljoinF : String → String → String)
    (analysisResult : SavedPage) (rawHrefs : List String)
    (st : CrawlState) (url : String) (resp : Response) : CrawlState :=
  let finalUrl := resp.finalUrl
  let finalDomain := String.mk (urlparseL finalUrl.data).netloc
  let wasRedirected := resp.history.length > 0
  if wasRedirected ∧ _normalize_domain finalDomain ≠ cfg.baseDomain then st
  else if wasRedirected ∧ _normalize_url finalUrl ≠ _normalize_url url ∧
      st.visited.contains (_normalize_url finalUrl) then st
  else
    let st1 := if wasRedirected ∧ _normalize_url finalUrl ≠ _normalize_url url
      then _mark_visited st finalUrl else st
    if 400 ≤ resp.status then
      { st1 with
          records := st1.records ++ [error_record finalUrl resp.status resp.contentLength],
          pageCount := st1.pageCount + 1 }
    else if ¬ containsHtml resp.contentType then st1
    else
      let st2 := { st1 with
          records := st1.records ++ [analysisResult],
          pageCount := st1.pageCount + 1 }
      rawHrefs.foldl (fun s href =>
        if ["#", "mailto:", "tel:", "javascript:", "data:"].any
            (fun pre => pre.data.isPrefixOf href.data) then s
        else _enqueue cfg s (dropAfter '?' (dropAfter '#' (urljoinF finalUrl href)))) st2

/-- Modelled from the spec's words (§3, claim C1), for comparison with
`_normalize_url`: lowercased scheme and host with a leading `www.` stripped,
the path with its trailing `/` removed and otherwise unchanged, no query or
fragment. -/
def dedup_key_spec (url : String) : String :=
  let p := urlparseL url.data
  let host := removePrefixL "www.".data (lowerL p.netloc)
  let path := if p.path.getLast? = some '/' then p.path.dropLast else p.path
  String.mk (lowerL p.scheme ++ "://".data ++ host ++ path)

/-- A robots.txt line that `RobotsParser._parse` routes to the `Allow:`
branch: non-empty after stripping, no leading `#`, first `:` preceded by a
key whose stripped lowercase form is `allow`. -/
def isAllowLineB (line : List Char) : Bool :=
  let l := stripL line
  !(decide (l.take 1 = ['#']) || decide (l = [])) &&
  (match splitFirst (fun c => c = ':') l with
   | some kv => decide (pyLowerS (String.mk (stripL kv.1)) = "allow")
   | none => false)

theorem char_toNat_ofNat_valid {n : Nat} (h : n.isValidChar) : (Char.ofNat n).toNat = n := by
  rw [Char.ofNat, dif_pos h]
  rfl

theorem toNat_pyLower (c : Char) :
    (pyLower c).toNat = if 65 ≤ c.toNat ∧ c.toNat ≤ 90 then c.toNat + 32 else c.toNat := by
  unfold pyLower
  split
  · rename_i h
    rw [char_toNat_ofNat_valid (by left; omega)]
  · simp_all

theorem char_eq_iff_toNat {c d : Char} : c = d ↔ c.toNat = d.toNat := by
  constructor
  · intro h; rw [h]
  · intro h
    apply Char.ext
    exact UInt32.toNat.inj h

theorem pyLower_idem (c : Char) : pyLower (pyLower c) = pyLower c := by
  rw [char_eq_iff_toNat, toNat_pyLower, toNat_pyLower c]
  split
  · rename_i h
    rw [if_neg (by omega)]
  · rfl

/-- `pyLower` does not move any character onto or off a character whose code
is below 65 (all URL delimiters such as `:"/?#;."` and whitespace). -/
theorem pyLower_eq_low_iff {c d : Char} (hd : d.toNat < 65) : pyLower c = d ↔ c = d := by
  rw [char_eq_iff_toNat, char_eq_iff_toNat, toNat_pyLower]
  split
  · rename_i h; omega
  · exact Iff.rfl

theorem isAsciiAlpha_pyLower (c : Char) : isAsciiAlpha (pyLower c) = isAsciiAlpha c := by
  unfold isAsciiAlpha
  rw [decide_eq_decide, toNat_pyLower]
  split <;> omega

theorem schemeChar_pyLower (c : Char) : schemeChar (pyLower c) = schemeChar c := by
  unfold schemeChar
  rw [decide_eq_decide, isAsciiAlpha_pyLower,
    pyLower_eq_low_iff (by decide), pyLower_eq_low_iff (by decide),
    pyLower_eq_low_iff (by decide), toNat_pyLower]
  by_cases hc : 65 ≤ c.toNat ∧ c.toNat ≤ 90
  · rw [if_pos hc]
    have hL : ¬(48 ≤ c.toNat + 32 ∧ c.toNat + 32 ≤ 57) := by omega
    have hR : ¬(48 ≤ c.toNat ∧ c.toNat ≤ 57) := by omega
    tauto
  · rw [if_neg hc]

theorem schemeChar_toNat_ge {c : Char} (h : schemeChar c = true) : 43 ≤ c.toNat := by
  unfold schemeChar isAsciiAlpha at h
  simp only [decide_eq_true_eq, Bool.or_eq_true] at h
  rcases h with h | h | h | h | h
  · rcases h with h | h <;> omega
  · omega
  · subst h; decide
  · subst h; decide
  · subst h; decide

theorem splitFirst_eq_none {p : Char → Bool} {l : List Char}
    (h : ∀ c ∈ l, p c = false) : splitFirst p l = none := by
  induction l with
  | nil => rfl
  | cons c cs ih =>
    simp only [splitFirst]
    rw [if_neg (by simp [h c (by simp)])]
    rw [ih (fun x hx => h x (by simp [hx]))]
    rfl

theorem splitFirst_append {p : Char → Bool} {a : List Char} (b : List Char)
    {d : Char} (ha : ∀ c ∈ a, p c = false) (hd : p d = true) :
    splitFirst p (a ++ d :: b) = some (a, b) := by
  induction a with
  | nil => simp [splitFirst, hd]
  | cons c cs ih =>
    rw [List.cons_append]
    show (if p c then some ([], cs ++ d :: b)
      else (splitFirst p (cs ++ d :: b)).map (fun x => (c :: x.1, x.2))) = some (c :: cs, b)
    rw [if_neg (by simp [ha c (by simp)])]
    rw [ih (fun x hx => ha x (by simp [hx]))]
    rfl

theorem splitFirst_before_not {p : Char → Bool} {l a b : List Char}
    (h : splitFirst p l = some (a, b)) : (∀ c ∈ a, p c = false) ∧ ∃ d, p d = true ∧ l = a ++ d :: b := by
  induction l generalizing a b with
  | nil => simp [splitFirst] at h
  | cons c cs ih =>
    simp only [splitFirst] at h
    by_cases hc : p c
    · rw [if_pos hc] at h
      simp at h
      obtain ⟨h1, h2⟩ := h
      subst h1; subst h2
      exact ⟨by simp, c, hc, by simp⟩
    · rw [if_neg hc] at h
      cases hsp : splitFirst p cs with
      | none => rw [hsp] at h; simp at h
      | some x =>
        rw [hsp] at h
        simp at h
        obtain ⟨h1, h2⟩ := h
        obtain ⟨ha, d, hd, hcs⟩ := ih hsp
        subst h1
        refine ⟨?_, d, hd, ?_⟩
        · intro e he
          simp at he
          rcases he with he | he
          · subst he; simpa using hc
          · exact ha e he
        · subst h2
          simp [hcs]

theorem splitFirst_map_pyLower (p : Char → Bool)
    (hp : ∀ c, p (pyLower c) = p c) (l : List Char) :
    splitFirst p (lowerL l) = (splitFirst p l).map (fun x => (lowerL x.1, lowerL x.2)) := by
  induction l with
  | nil => rfl
  | cons c cs ih =>
    show (if p (pyLower c) then some ([], lowerL cs)
        else (splitFirst p (lowerL cs)).map (fun x => (pyLower c :: x.1, x.2)))
      = ((if p c then some ([], cs)
        else (splitFirst p cs).map (fun x => (c :: x.1, x.2))).map
          (fun x => (lowerL x.1, lowerL x.2)))
    rw [hp c]
    by_cases hc : p c
    · simp [hc, lowerL]
    · rw [if_neg hc, if_neg hc, ih]
      cases splitFirst p cs <;> simp [lowerL]

theorem score_foldl (l : List Issue) (s : Int) :
    l.foldl (fun s i =>
      if i.severity = "critical" then s - 15
      else if i.severity = "warning" then s - 7
      else if i.severity = "info" then s - 2
      else s) s
    = s - 15 * (l.countP (fun i => i.severity = "critical") : Int)
        - 7 * (l.countP (fun i => i.severity = "warning") : Int)
        - 2 * (l.countP (fun i => i.severity = "info") : Int) := by
  induction l generalizing s with
  | nil => simp
  | cons i t ih =>
    simp only [List.foldl_cons, List.countP_cons, ih]
    by_cases h1 : i.severity = "critical"
    · simp only [h1]
      norm_num
      push_cast
      ring
    · by_cases h2 : i.severity = "warning"
      · simp only [h1, h2]
        norm_num
        push_cast
        ring
      · by_cases h3 : i.severity = "info"
        · simp only [h1, h2, h3]
          norm_num
          push_cast
          ring
        · simp only [h1, h2, h3]
          norm_num

/-- C2: for every input, the analyzer's score equals 100 minus 15 per
critical issue, 7 per warning and 2 per info issue in the issue list it
emitted, clamped to [0, 100]. -/
theorem c2_score_formula (issues : List Issue) :
    _calculate_score issues =
      max 0 (min 100 (100 - 15 * (issues.countP (fun i => i.severity = "critical") : Int)
        - 7 * (issues.countP (fun i => i.severity = "warning") : Int)
        - 2 * (issues.countP (fun i => i.severity = "info") : Int))) := by
  unfold _calculate_score
  rw [score_foldl]

theorem string_data_length (s : String) : s.length = s.data.length := rfl

theorem string_ne_empty_iff_length {s : String} : s ≠ "" ↔ 1 ≤ s.length := by
  constructor
  · intro h
    have hd : s.data ≠ [] := fun he => h (by cases s; simp_all)
    have h2 : 0 < s.data.length := List.length_pos.mpr hd
    rw [string_data_length]
    omega
  · intro h he
    subst he
    exact absurd h (by decide)

theorem analyze_title_none : _analyze_title none = [⟨"critical", "missing_title"⟩] := rfl

theorem analyze_title_empty : _analyze_title (some "") = [⟨"critical", "missing_title"⟩] := rfl

theorem analyze_title_some {s : String} (hs : s ≠ "") :
    _analyze_title (some s) =
      if s.length < 30 then [⟨"warning", "short_title"⟩]
      else if s.length > 60 then [⟨"warning", "long_title"⟩] else [] := by
  have hc : ¬((some s : Option String) = none ∨ (some s : Option String) = some "") := by
    rintro (h | h)
    · exact Option.noConfusion h
    · exact hs (by injection h)
  unfold _analyze_title
  rw [if_neg hc]
  simp only [Option.getD_some]

set_option maxRecDepth 8000 in
/-- C4: `missing_title` exactly for an absent or empty trimmed title,
`short_title` exactly for length 1..29, `long_title` exactly for length
over 60, and no issue at the 30 and 60 boundaries. -/
theorem c4_title_issue_boundaries (t : Option String) :
    ((⟨"critical", "missing_title"⟩ : Issue) ∈ _analyze_title t ↔ t = none ∨ t = some "") ∧
    ((⟨"warning", "short_title"⟩ : Issue) ∈ _analyze_title t ↔
      ∃ s, t = some s ∧ 1 ≤ s.length ∧ s.length ≤ 29) ∧
    ((⟨"warning", "long_title"⟩ : Issue) ∈ _analyze_title t ↔
      ∃ s, t = some s ∧ 60 < s.length) ∧
    _analyze_title (some (String.mk (List.replicate 30 'a'))) = [] ∧
    _analyze_title (some (String.mk (List.replicate 29 'a'))) = [⟨"warning", "short_title"⟩] ∧
    _analyze_title (some (String.mk (List.replicate 60 'a'))) = [] ∧
    _analyze_title (some (String.mk (List.replicate 61 'a'))) = [⟨"warning", "long_title"⟩] := by
  refine ⟨?_, ?_, ?_, by decide, by decide, by decide, by decide⟩
  · cases t with
    | none => simp [analyze_title_none]
    | some s =>
      by_cases hs : s = ""
      · subst hs
        simp [analyze_title_empty]
      · rw [analyze_title_some hs]
        constructor
        · intro hm
          split at hm <;> simp_all
        · rintro (h | h) <;> simp_all
  · cases t with
    | none => simp [analyze_title_none]
    | some s =>
      by_cases hs : s = ""
      · subst hs
        rw [analyze_title_empty]
        constructor
        · intro hm
          simp at hm
        · rintro ⟨s', hs', h1, _⟩
          injection hs' with h2
          subst h2
          exact absurd h1 (by decide)
      · rw [analyze_title_some hs]
        have hs1 := string_ne_empty_iff_length.mp hs
        by_cases h30 : s.length < 30
        · rw [if_pos h30]
          simp only [List.mem_singleton]
          constructor
          · intro _
            exact ⟨s, rfl, hs1, by omega⟩
          · intro _
            trivial
        · rw [if_neg h30]
          by_cases h60 : s.length > 60
          · rw [if_pos h60]
            constructor
            · intro hm
              simp at hm
            · rintro ⟨s', hs', _, h29⟩
              injection hs' with h2
              subst h2
              omega
          · rw [if_neg h60]
            constructor
            · intro hm
              simp at hm
            · rintro ⟨s', hs', _, h29⟩
              injection hs' with h2
              subst h2
              omega
  · cases t with
    | none => simp [analyze_title_none]
    | some s =>
      by_cases hs : s = ""
      · subst hs
        rw [analyze_title_empty]
        constructor
        · intro hm
          simp at hm
        · rintro ⟨s', hs', h60⟩
          injection hs' with h2
          subst h2
          exact absurd h60 (by decide)
      · rw [analyze_title_some hs]
        by_cases h30 : s.length < 30
        · rw [if_pos h30]
          constructor
          · intro hm
            simp at hm
          · rintro ⟨s', hs', h60⟩
            injection hs' with h2
            subst h2
            omega
        · rw [if_neg h30]
          by_cases h60 : s.length > 60
          · rw [if_pos h60]
            simp only [List.mem_singleton]
            constructor
            · intro _
              exact ⟨s, rfl, by omega⟩
            · intro _
              trivial
          · rw [if_neg h60]
            constructor
            · intro hm
              simp at hm
            · rintro ⟨s', hs', h'60⟩
              injection hs' with h2
              subst h2
              omega

set_option maxRecDepth 100000 in
/-- C7 (code bug): the analyzer emits `canonical_relative` with severity
`info` while the aggregation engine's `severity_map` assigns it `warning`;
every other identifier known to both tables carries the same severity on
both sides. -/
theorem c7_canonical_relative_severity :
    lookupSev analyzer_severities "canonical_relative" = some "info" ∧
    lookupSev severity_map "canonical_relative" = some "warning" ∧
    ("info" : String) ≠ "warning" ∧
    analyzer_severities.all (fun e => e.1 = "canonical_relative" ∨
      severity_map.all (fun e2 => e2.1 ≠ e.1 ∨ e2.2 = e.2)) = true := by
  refine ⟨by decide, by decide, by decide, by decide⟩

set_option maxRecDepth 100000 in
/-- C1 counterexample: the deduplication key lowercases the path as well
(the whole URL is lowercased before parsing), so the key of
`http://Example.com/Path` differs from the spec's key, whose path is
unchanged apart from a trailing slash. -/
theorem c1_path_case_counterexample :
    _normalize_url "http://Example.com/Path" = "http://example.com/path" ∧
    dedup_key_spec "http://Example.com/Path" = "http://example.com/Path" ∧
    _normalize_url "http://Example.com/Path" ≠ dedup_key_spec "http://Example.com/Path" := by
  refine ⟨by decide, by decide, by decide⟩

set_option maxRecDepth 100000 in
/-- C9 counterexample: normalization strips only one leading `www.` per
application, so it is not idempotent on `http://www.www.example.com/`. -/
theorem c9_idempotence_counterexample :
    _normalize_url "http://www.www.example.com/" = "http://www.example.com" ∧
    _normalize_url (_normalize_url "http://www.www.example.com/") = "http://example.com" ∧
    _normalize_url (_normalize_url "http://www.www.example.com/") ≠
      _normalize_url "http://www.www.example.com/" := by
  refine ⟨by decide, by decide, by decide⟩

set_option maxRecDepth 100000 in
/-- C3 counterexample: `is_allowed` never consults `Allow:` patterns, so a
path covered by a disallow pattern is blocked even when a more specific
allow pattern covers it, contrary to the spec's longest-prefix rule. -/
theorem c3_allow_override_counterexample :
    is_allowed (robots_parse "User-agent: *\nDisallow: /private\nAllow: /private/open")
      "http://e.x/private/open/page" = false ∧
    is_allowed_spec (robots_parse "User-agent: *\nDisallow: /private\nAllow: /private/open")
      "http://e.x/private/open/page" = true := by
  refine ⟨by decide, by decide⟩

/-- C6: when a dequeued URL's fetch was redirected and the final URL's
normalized host is off the effective base domain, `_crawl_page` drops the
request entirely: the saved records, the queue, the visited set and the
page counter are unchanged. -/
theorem c6_offdomain_redirect_frame (cfg : EngineCfg) (uj : String → String → String)
    (ar : SavedPage) (hrefs : List String) (st : CrawlState) (url : String) (resp : Response)
    (hredir : resp.history ≠ [])
    (hoff : _normalize_domain (String.mk (urlparseL resp.finalUrl.data).netloc) ≠ cfg.baseDomain) :
    _crawl_page cfg uj ar hrefs st url resp = st := by
  have h1 : resp.history.length > 0 := List.length_pos.mpr hredir
  unfold _crawl_page
  rw [if_pos ⟨h1, hoff⟩]

set_option maxRecDepth 100000 in
theorem c6_offdomain_redirect_frame_witness :
    _crawl_page ⟨"e.x", 10000⟩ (fun a _ => a) (error_record "u" 200 0) []
      ⟨[], [], [], 0⟩ "http://e.x/out" ⟨"http://other.x/", 200, [302], "text/html", 5⟩
      = ⟨[], [], [], 0⟩ :=
  c6_offdomain_redirect_frame ⟨"e.x", 10000⟩ (fun a _ => a) (error_record "u" 200 0) []
    ⟨[], [], [], 0⟩ "http://e.x/out" ⟨"http://other.x/", 200, [302], "text/html", 5⟩
    (by decide) (by decide)

/-- C10: on a final status of 400 or more, `_crawl_page` either drops the
request (redirect bookkeeping) or saves exactly the `error_record`, whose
issue list is empty, whose signal fields are all neutral defaults, and whose
score is the literal 0 — not the 100 the scoring formula yields on an empty
issue list. -/
theorem c10_error_record_defaults (cfg : EngineCfg) (uj : String → String → String)
    (ar : SavedPage) (hrefs : List String) (st : CrawlState) (url : String) (resp : Response)
    (herr : 400 ≤ resp.status) :
    ((_crawl_page cfg uj ar hrefs st url resp).records = st.records ∨
      (_crawl_page cfg uj ar hrefs st url resp).records
        = st.records ++ [error_record resp.finalUrl resp.status resp.contentLength]) ∧
    (resp.history = [] → (_crawl_page cfg uj ar hrefs st url resp).records
        = st.records ++ [error_record resp.finalUrl resp.status resp.contentLength]) ∧
    (error_record resp.finalUrl resp.status resp.contentLength).issues = [] ∧
    (error_record resp.finalUrl resp.status resp.contentLength).score = 0 ∧
    (error_record resp.finalUrl resp.status resp.contentLength).title = none ∧
    (error_record resp.finalUrl resp.status resp.contentLength).title_length = 0 ∧
    (error_record resp.finalUrl resp.status resp.contentLength).meta_description = none ∧
    (error_record resp.finalUrl resp.status resp.contentLength).meta_description_length = 0 ∧
    (error_record resp.finalUrl resp.status resp.contentLength).canonical_url = none ∧
    (error_record resp.finalUrl resp.status resp.contentLength).robots_meta = none ∧
    (error_record resp.finalUrl resp.status resp.contentLength).is_noindex = false ∧
    (error_record resp.finalUrl resp.status resp.contentLength).h1_count = 0 ∧
    (error_record resp.finalUrl resp.status resp.contentLength).total_images = 0 ∧
    (error_record resp.finalUrl resp.status resp.contentLength).internal_links = 0 ∧
    (error_record resp.finalUrl resp.status resp.contentLength).external_links = 0 ∧
    (error_record resp.finalUrl resp.status resp.contentLength).has_schema_markup = false ∧
    (error_record resp.finalUrl resp.status resp.contentLength).has_viewport_meta = false ∧
    (error_record resp.finalUrl resp.status resp.contentLength).word_count = 0 ∧
    (error_record resp.finalUrl resp.status resp.contentLength).has_placeholders = false ∧
    _calculate_score [] = 100 ∧
    (error_record resp.finalUrl resp.status resp.contentLength).score ≠ _calculate_score [] := by
  refine ⟨?_, ?_, rfl, rfl, rfl, rfl, rfl, rfl, rfl, rfl, rfl, rfl, rfl, rfl, rfl, rfl, rfl,
    rfl, rfl, by decide, ?_⟩
  · unfold _crawl_page
    by_cases hg1 : resp.history.length > 0 ∧
        _normalize_domain (String.mk (urlparseL resp.finalUrl.data).netloc) ≠ cfg.baseDomain
    · rw [if_pos hg1]
      left
      rfl
    · rw [if_neg hg1]
      by_cases hg2 : resp.history.length > 0 ∧ _normalize_url resp.finalUrl ≠ _normalize_url url ∧
          (st.visited.contains (_normalize_url resp.finalUrl)) = true
      · rw [if_pos hg2]
        left
        rfl
      · rw [if_neg hg2]
        rw [if_pos herr]
        right
        by_cases hg3 : resp.history.length > 0 ∧ _normalize_url resp.finalUrl ≠ _normalize_url url
        · rw [if_pos hg3]
          unfold _mark_visited
          split <;> rfl
        · rw [if_neg hg3]
  · intro hh
    have hlen : ¬ resp.history.length > 0 := by simp [hh]
    have hg3 : ¬(resp.history.length > 0 ∧ _normalize_url resp.finalUrl ≠ _normalize_url url) :=
      fun hc => hlen hc.1
    unfold _crawl_page
    rw [if_neg (fun hc => hlen hc.1), if_neg (fun hc => hlen hc.1), if_pos herr]
    simp only [if_neg hg3]
  · rw [show (error_record resp.finalUrl resp.status resp.contentLength).score = 0 from rfl]
    decide

set_option maxRecDepth 100000 in
theorem c10_error_record_defaults_witness :
    (_crawl_page ⟨"e.x", 10000⟩ (fun a _ => a) (error_record "u" 200 0) []
        ⟨[], [], [], 0⟩ "http://e.x/a" ⟨"http://e.x/a", 404, [], "", 7⟩).records
      = [] ++ [error_record "http://e.x/a" 404 7] :=
  (c10_error_record_defaults ⟨"e.x", 10000⟩ (fun a _ => a) (error_record "u" 200 0) []
    ⟨[], [], [], 0⟩ "http://e.x/a" ⟨"http://e.x/a", 404, [], "", 7⟩ (by decide)).2.1 rfl

theorem isPyWs_pyLower (c : Char) : isPyWs (pyLower c) = isPyWs c := by
  unfold isPyWs
  rw [decide_eq_decide,
    pyLower_eq_low_iff (by decide), pyLower_eq_low_iff (by decide),
    pyLower_eq_low_iff (by decide), pyLower_eq_low_iff (by decide),
    pyLower_eq_low_iff (by decide), pyLower_eq_low_iff (by decide)]

theorem matchLit_ci_lower (ps : List Char) (s : List Char) :
    matchLit true ps (lowerL s) = (matchLit true ps s).map lowerL := by
  induction ps generalizing s with
  | nil => rfl
  | cons p ps ih =>
    cases s with
    | nil => rfl
    | cons c cs =>
      show (if pyLower (pyLower c) = pyLower p then matchLit true ps (lowerL cs) else none)
        = ((if pyLower c = pyLower p then matchLit true ps cs else none).map lowerL)
      rw [pyLower_idem]
      by_cases hc : pyLower c = pyLower p
      · rw [if_pos hc, if_pos hc, ih]
      · rw [if_neg hc, if_neg hc]
        rfl

theorem matchWsPlus_lower (s : List Char) :
    matchWsPlus (lowerL s) = (matchWsPlus s).map lowerL := by
  cases s with
  | nil => rfl
  | cons c cs =>
    show (if isPyWs (pyLower c) then some ((lowerL cs).dropWhile isPyWs) else none)
      = ((if isPyWs c then some (cs.dropWhile isPyWs) else none).map lowerL)
    rw [isPyWs_pyLower]
    by_cases hc : isPyWs c
    · rw [if_pos hc, if_pos hc]
      show some ((cs.map pyLower).dropWhile isPyWs) = some ((cs.dropWhile isPyWs).map pyLower)
      rw [List.dropWhile_map]
      have : (isPyWs ∘ pyLower) = isPyWs := funext isPyWs_pyLower
      rw [this]
    · rw [if_neg hc, if_neg hc]
      rfl

theorem option_bind_map_lowerL {o : Option (List Char)} {g : List Char → Option (List Char)}
    (hg : ∀ s, g (lowerL s) = (g s).map lowerL) :
    (o.map lowerL).bind g = (o.bind g).map lowerL := by
  cases o with
  | none => rfl
  | some r => simpa using hg r

theorem loremAt_lower (s : List Char) : loremAt (lowerL s) = loremAt s := by
  unfold loremAt
  rw [matchLit_ci_lower, option_bind_map_lowerL matchWsPlus_lower,
    option_bind_map_lowerL (matchLit_ci_lower _)]
  cases ((matchLit true "lorem".data s).bind matchWsPlus).bind (matchLit true "ipsum".data) <;> rfl

theorem dolorAt_lower (s : List Char) : dolorAt (lowerL s) = dolorAt s := by
  unfold dolorAt
  rw [matchLit_ci_lower, option_bind_map_lowerL matchWsPlus_lower,
    option_bind_map_lowerL (matchLit_ci_lower _),
    option_bind_map_lowerL matchWsPlus_lower,
    option_bind_map_lowerL (matchLit_ci_lower _)]
  cases ((((matchLit true "dolor".data s).bind matchWsPlus).bind
    (matchLit true "sit".data)).bind matchWsPlus).bind (matchLit true "amet".data) <;> rfl

theorem consecteturAt_lower (s : List Char) : consecteturAt (lowerL s) = consecteturAt s := by
  unfold consecteturAt
  rw [matchLit_ci_lower, option_bind_map_lowerL matchWsPlus_lower,
    option_bind_map_lowerL (matchLit_ci_lower _)]
  cases ((matchLit true "consectetur".data s).bind matchWsPlus).bind
    (matchLit true "adipiscing".data) <;> rfl

theorem looseHitAt_lower (s : List Char) : looseHitAt (lowerL s) = looseHitAt s := by
  unfold looseHitAt
  rw [decide_eq_decide, loremAt_lower, dolorAt_lower, consecteturAt_lower]

theorem anySuffix_loose_lower (l : List Char) :
    anySuffix looseHitAt (lowerL l) = anySuffix looseHitAt l := by
  induction l with
  | nil => rfl
  | cons c cs ih =>
    show (looseHitAt (lowerL (c :: cs)) ∨ anySuffix looseHitAt (lowerL cs) : Bool)
      = (looseHitAt (c :: cs) ∨ anySuffix looseHitAt cs : Bool)
    rw [decide_eq_decide, looseHitAt_lower, ih]

set_option maxRecDepth 100000 in
/-- C8: placeholder detection matches the lorem-ipsum family
case-insensitively (the loose scan is invariant under lowercasing) and
`TODO: ` / `FIXME: ` only case-sensitively; a single critical
`placeholder_content` issue is emitted exactly when some pattern matches;
lowercase `todo: ` alone never triggers it while `LOREM IPSUM` does. -/
theorem c8_placeholder_patterns :
    (∀ text : String, _analyze_placeholders text = [] ∨
      _analyze_placeholders text = [⟨"critical", "placeholder_content"⟩]) ∧
    (∀ text : String, _analyze_placeholders text ≠ [] ↔ has_placeholder_hit text = true) ∧
    (∀ l : List Char, anySuffix looseHitAt (lowerL l) = anySuffix looseHitAt l) ∧
    _analyze_placeholders "We say todo: later" = [] ∧
    _analyze_placeholders "We say fixme: later" = [] ∧
    _analyze_placeholders "We say TODO: later" = [⟨"critical", "placeholder_content"⟩] ∧
    _analyze_placeholders "We say FIXME: later" = [⟨"critical", "placeholder_content"⟩] ∧
    _analyze_placeholders "Header LOREM IPSUM footer" = [⟨"critical", "placeholder_content"⟩] ∧
    _analyze_placeholders "lorem   ipsum" = [⟨"critical", "placeholder_content"⟩] ∧
    _analyze_placeholders "Dolor Sit Amet" = [⟨"critical", "placeholder_content"⟩] ∧
    _analyze_placeholders "consectetur ADIPISCING" = [⟨"critical", "placeholder_content"⟩] ∧
    _analyze_placeholders "plain page text" = [] := by
  refine ⟨?_, ?_, anySuffix_loose_lower, by decide, by decide, by decide, by decide,
    by decide, by decide, by decide, by decide, by decide⟩
  · intro text
    unfold _analyze_placeholders
    split
    · right
      rfl
    · left
      rfl
  · intro text
    unfold _analyze_placeholders
    split
    · rename_i h
      simp [h]
    · rename_i h
      simp only [Bool.not_eq_true] at h
      simp [h]

theorem mem_firstOccs {t : String} (seen l : List String) :
    t ∈ firstOccs seen l ↔ t ∈ l ∧ t ∉ seen := by
  induction l generalizing seen with
  | nil => simp [firstOccs]
  | cons a l ih =>
    unfold firstOccs
    by_cases ha : a ∈ seen
    · rw [if_pos ha, ih]
      constructor
      · rintro ⟨h1, h2⟩
        exact ⟨List.mem_cons_of_mem a h1, h2⟩
      · rintro ⟨h1, h2⟩
        rcases List.mem_cons.mp h1 with h | h
        · subst h
          exact absurd ha h2
        · exact ⟨h, h2⟩
    · rw [if_neg ha]
      constructor
      · intro h
        rcases List.mem_cons.mp h with h | h
        · subst h
          exact ⟨List.mem_cons_self t l, ha⟩
        · obtain ⟨h1, h2⟩ := (ih (a :: seen)).mp h
          exact ⟨List.mem_cons_of_mem a h1,
            fun hc => h2 (List.mem_cons_of_mem a hc)⟩
      · rintro ⟨h1, h2⟩
        by_cases hta : t = a
        · subst hta
          exact List.mem_cons_self t _
        · rcases List.mem_cons.mp h1 with h | h
          · exact absurd h hta
          · exact List.mem_cons_of_mem a ((ih (a :: seen)).mpr
              ⟨h, fun hc => (List.mem_cons.mp hc).elim hta h2⟩)

theorem mem_truthyTitles {t : String} (cps : List PageRow) :
    t ∈ truthyTitles cps ↔ t ≠ "" ∧ ∃ p ∈ cps, p.title = some t := by
  unfold truthyTitles
  rw [List.mem_filterMap]
  constructor
  · rintro ⟨p, hp, hf⟩
    cases hpt : p.title with
    | none =>
      simp only [hpt] at hf
      exact Option.noConfusion hf
    | some s =>
      simp only [hpt] at hf
      by_cases hs : s = ""
      · rw [if_pos hs] at hf
        cases hf
      · rw [if_neg hs] at hf
        injection hf with hf
        subst hf
        exact ⟨hs, p, hp, hpt⟩
  · rintro ⟨hne, p, hp, hpt⟩
    exact ⟨p, hp, by simp only [hpt]; rw [if_neg hne]⟩

theorem foldl_add_init (g : PageRow → Nat) (l : List PageRow) (n : Nat) :
    l.foldl (fun acc p => acc + g p) n = n + l.foldl (fun acc p => acc + g p) 0 := by
  induction l generalizing n with
  | nil => simp
  | cons p t ih =>
    simp only [List.foldl_cons]
    rw [ih (n + g p), ih (0 + g p)]
    omega

theorem summary_critical_eq_sum (ps : List PageRow) :
    summary_critical_count ps =
      ((content_pages ps).map
        (fun p => p.issues.countP (fun i => i.severity = "critical"))).sum := by
  unfold summary_critical_count
  generalize content_pages ps = l
  induction l with
  | nil => rfl
  | cons p t ih =>
    simp only [List.foldl_cons, List.map_cons, List.sum_cons]
    rw [foldl_add_init, ih]
    omega

/-- C5: the summary's `duplicate_titles` reports exactly the groups of
content pages (2xx status) sharing one non-empty title with more than one
member, carrying the title value, the member pages and their count; and the
summary's `critical_issues` counter ignores titles entirely, so duplicate
titles contribute nothing to it. -/
theorem c5_duplicate_titles_summary (ps : List PageRow) :
    (∀ g : DuplicateGroup, g ∈ duplicate_titles ps ↔
      (g.value ≠ "" ∧
       g.pages = (pagesWithTitle (content_pages ps) g.value).map (fun p => (p.url, p.id)) ∧
       g.count = (pagesWithTitle (content_pages ps) g.value).length ∧
       1 < g.count)) ∧
    (∀ f : PageRow → Option String,
      summary_critical_count (ps.map (fun p => { p with title := f p })) =
        summary_critical_count ps) := by
  constructor
  · intro g
    unfold duplicate_titles
    rw [List.mem_filterMap]
    constructor
    · rintro ⟨t, ht, hf⟩
      by_cases hlen : (pagesWithTitle (content_pages ps) t).length > 1
      · rw [if_pos hlen] at hf
        injection hf with hf
        subst hf
        have ht2 := ((mem_firstOccs [] _).mp ht).1
        have hne := ((mem_truthyTitles _).mp ht2).1
        exact ⟨hne, rfl, rfl, hlen⟩
      · rw [if_neg hlen] at hf
        cases hf
    · rintro ⟨hne, hpages, hcount, hgt⟩
      refine ⟨g.value, ?_, ?_⟩
      · have hne2 : pagesWithTitle (content_pages ps) g.value ≠ [] := by
          intro he
          rw [he] at hcount
          simp at hcount
          omega
        obtain ⟨p, hp⟩ := List.exists_mem_of_ne_nil _ hne2
        have hp1 : p ∈ content_pages ps := List.mem_of_mem_filter hp
        have hp2 : p.title = some g.value := by
          have := List.of_mem_filter hp
          simpa using this
        exact (mem_firstOccs [] _).mpr
          ⟨(mem_truthyTitles _).mpr ⟨hne, p, hp1, hp2⟩, by simp⟩
      · rw [if_pos (by omega : (pagesWithTitle (content_pages ps) g.value).length > 1)]
        cases g with
        | mk v pgs cnt =>
          simp only at hpages hcount ⊢
          rw [hpages, hcount]
  · intro f
    rw [summary_critical_eq_sum, summary_critical_eq_sum]
    have h1 : content_pages (ps.map (fun p => { p with title := f p })) =
        (content_pages ps).map (fun p => { p with title := f p }) := by
      unfold content_pages
      rw [List.filter_map]
      rfl
    rw [h1, List.map_map]
    rfl

theorem getLastD_mem {l : List String} (h : l ≠ []) (d : String) : (l.getLast?.getD d) ∈ l := by
  cases hg : l.getLast? with
  | none => exact absurd (List.getLast?_eq_none_iff.mp hg) h
  | some a =>
    simp only [Option.getD_some]
    exact List.mem_of_mem_getLast? (by simp [hg])

theorem ensureKey_mono {m : List (String × AgentRule)} {k' : String} (k : String)
    (h : assocContains m k' = true) : assocContains (ensureKey m k) k' = true := by
  unfold ensureKey
  split
  · exact h
  · unfold assocContains at h ⊢
    rw [List.any_append, h]
    rfl

theorem ensureKey_self (m : List (String × AgentRule)) (k : String) :
    assocContains (ensureKey m k) k = true := by
  unfold ensureKey
  split
  · assumption
  · unfold assocContains
    rw [List.any_append]
    simp [assocContains]

theorem assocContains_modify (m : List (String × AgentRule)) (k k' : String)
    (f : AgentRule → AgentRule) :
    assocContains (assocModify m k f) k' = assocContains m k' := by
  unfold assocContains assocModify
  rw [List.any_map]
  induction m with
  | nil => rfl
  | cons e t ih =>
    show (_ || _) = (_ || _)
    rw [ih]
    congr 1
    show decide ((if e.1 = k then (e.1, f e.2) else e).1 = k') = decide (e.1 = k')
    split <;> rfl

theorem rulesFoldl_mono (agents : List String) (value : String) (upd : AgentRule → AgentRule)
    (m : List (String × AgentRule)) (k' : String) (h : assocContains m k' = true) :
    assocContains (agents.foldl (fun m a =>
      let m2 := ensureKey m (pyLowerS a)
      if value ≠ "" then assocModify m2 (pyLowerS a) upd else m2) m) k' = true := by
  induction agents generalizing m with
  | nil => exact h
  | cons a t ih =>
    simp only [List.foldl_cons]
    apply ih
    split
    · rw [assocContains_modify]
      exact ensureKey_mono _ h
    · exact ensureKey_mono _ h

theorem processLine_inv (st : RobotsState) (line : List Char)
    (h : ∀ a ∈ st.currentAgents, assocContains st.agentRules (pyLowerS a) = true) :
    ∀ a ∈ (processLine st line).currentAgents,
      assocContains (processLine st line).agentRules (pyLowerS a) = true := by
  unfold processLine
  dsimp only
  split
  · exact h
  · split
    · exact h
    · rename_i k v heq
      split
      · intro a ha
        rcases List.mem_append.mp ha with ha | ha
        · split at ha
          · simp at ha
          · exact ensureKey_mono _ (h a ha)
        · simp at ha
          subst ha
          exact ensureKey_self _ _
      · split
        · intro a ha
          exact rulesFoldl_mono _ _ _ _ _ (h a ha)
        · split
          · intro a ha
            exact rulesFoldl_mono _ _ _ _ _ (h a ha)
          · split
            · exact h
            · exact h

theorem processLine_obs (st : RobotsState) (line : List Char)
    (h : ∀ a ∈ st.currentAgents, assocContains st.agentRules (pyLowerS a) = true) :
    (processLine st line).currentAgents = (obsStep st.currentAgents st.disallowed line).1 ∧
    (processLine st line).disallowed = (obsStep st.currentAgents st.disallowed line).2 := by
  unfold processLine obsStep
  dsimp only
  split
  · exact ⟨rfl, rfl⟩
  · split
    · exact ⟨rfl, rfl⟩
    · rename_i k v heq
      split
      · have hreset : st.currentAgents = [] ∨
            (st.currentAgents ≠ [] ∧
              assocContains st.agentRules (pyLowerS (st.currentAgents.getLast?.getD "")) = true) := by
          by_cases hce : st.currentAgents = []
          · exact Or.inl hce
          · exact Or.inr ⟨hce, h _ (getLastD_mem hce "")⟩
        rw [if_pos hreset]
        exact ⟨rfl, rfl⟩
      · split
        · exact ⟨rfl, rfl⟩
        · split
          · exact ⟨rfl, rfl⟩
          · split
            · exact ⟨rfl, rfl⟩
            · exact ⟨rfl, rfl⟩

theorem parseLines_fold_obs (lines : List (List Char)) (st : RobotsState)
    (h : ∀ a ∈ st.currentAgents, assocContains st.agentRules (pyLowerS a) = true) :
    (List.foldl processLine st lines).currentAgents
        = (obsFold (st.currentAgents, st.disallowed) lines).1 ∧
    (List.foldl processLine st lines).disallowed
        = (obsFold (st.currentAgents, st.disallowed) lines).2 := by
  induction lines generalizing st with
  | nil => exact ⟨rfl, rfl⟩
  | cons l t ih =>
    simp only [List.foldl_cons]
    have hstep := processLine_obs st l h
    have hinv := processLine_inv st l h
    obtain ⟨ih1, ih2⟩ := ih (processLine st l) hinv
    have hpair : ((processLine st l).currentAgents, (processLine st l).disallowed)
        = obsStep st.currentAgents st.disallowed l := by
      rw [hstep.1, hstep.2]
    rw [ih1, ih2, hpair]
    exact ⟨rfl, rfl⟩

theorem obsStep_allow (ca dis : List String) (line : List Char)
    (hl : isAllowLineB line = true) : obsStep ca dis line = (ca, dis) := by
  unfold isAllowLineB at hl
  rw [Bool.and_eq_true] at hl
  obtain ⟨hl1, hl2⟩ := hl
  unfold obsStep
  dsimp only
  rw [if_neg (by simpa using hl1)]
  cases hsp : splitFirst (fun c => c = ':') (stripL line) with
  | none =>
    rw [hsp] at hl2
  | some kv =>
    obtain ⟨k, v⟩ := kv
    rw [hsp] at hl2
    dsimp only at hl2 ⊢
    simp only [decide_eq_true_eq] at hl2
    rw [if_neg (by rw [hl2]; decide)]
    rw [if_neg (fun hc => absurd (hl2.symm.trans hc.1) (by decide))]

theorem foldl_inv (lines : List (List Char)) (st : RobotsState)
    (h : ∀ a ∈ st.currentAgents, assocContains st.agentRules (pyLowerS a) = true) :
    ∀ a ∈ (List.foldl processLine st lines).currentAgents,
      assocContains (List.foldl processLine st lines).agentRules (pyLowerS a) = true := by
  induction lines generalizing st with
  | nil => exact h
  | cons l t ih =>
    simp only [List.foldl_cons]
    exact ih (processLine st l) (processLine_inv st l h)

theorem processLine_disallowed_ne (st : RobotsState) (line : List Char)
    (h : ∀ d ∈ st.disallowed, d ≠ "") :
    ∀ d ∈ (processLine st line).disallowed, d ≠ "" := by
  unfold processLine
  dsimp only
  split
  · exact h
  · split
    · exact h
    · rename_i k v heq
      split
      · exact h
      · split
        · intro d hd
          dsimp only at hd
          split at hd
          · rename_i hcond
            rcases List.mem_append.mp hd with hd | hd
            · exact h d hd
            · simp at hd
              subst hd
              exact hcond.2
          · exact h d hd
        · split
          · exact h
          · split
            · exact h
            · exact h

theorem foldl_disallowed_ne (lines : List (List Char)) (st : RobotsState)
    (h : ∀ d ∈ st.disallowed, d ≠ "") :
    ∀ d ∈ (List.foldl processLine st lines).disallowed, d ≠ "" := by
  induction lines generalizing st with
  | nil => exact h
  | cons l t ih =>
    simp only [List.foldl_cons]
    exact ih (processLine st l) (processLine_disallowed_ne st l h)

/-- C3 amended: the crawler's allow check blocks a URL exactly when its path
starts with one of the non-empty `Disallow:` values collected for the `*` /
`SEOCrawlerBot` groups; empty disallow values are never collected (allow
everything), and `Allow:` lines never influence the check — inserting an
allow line anywhere in the file leaves `is_allowed` unchanged. -/
theorem c3_disallow_prefix_amended (content : String) (url : String)
    (pre post : List (List Char)) (line : List Char)
    (hline : isAllowLineB line = true) :
    (is_allowed (robots_parse content) url = true ↔
      ∀ d ∈ (robots_parse content).disallowed,
        ¬ d.data.isPrefixOf (urlparseL url.data).path) ∧
    (∀ d ∈ (robots_parse content).disallowed, d ≠ "") ∧
    (is_allowed (parseLines (pre ++ line :: post)) url
      = is_allowed (parseLines (pre ++ post)) url) := by
  refine ⟨?_, ?_, ?_⟩
  · unfold is_allowed
    rw [List.all_eq_true]
    constructor
    · intro h d hd
      have := h d hd
      simpa using this
    · intro h d hd
      simpa using h d hd
  · exact foldl_disallowed_ne _ _ (by simp [RobotsState.init])
  · have hinit : ∀ a ∈ (RobotsState.init).currentAgents,
        assocContains (RobotsState.init).agentRules (pyLowerS a) = true := by
      simp [RobotsState.init]
    have hd1 : (parseLines (pre ++ line :: post)).disallowed
        = (parseLines (pre ++ post)).disallowed := by
      unfold parseLines
      rw [List.foldl_append, List.foldl_append, List.foldl_cons]
      have hpreinv := foldl_inv pre RobotsState.init hinit
      have hstep := processLine_obs (List.foldl processLine RobotsState.init pre) line hpreinv
      have hstepinv := processLine_inv (List.foldl processLine RobotsState.init pre) line hpreinv
      obtain ⟨ha1, hb1⟩ := parseLines_fold_obs post _ hstepinv
      obtain ⟨ha2, hb2⟩ := parseLines_fold_obs post _ hpreinv
      rw [hb1, hb2]
      congr 1
      rw [hstep.1, hstep.2, obsStep_allow _ _ _ hline]
    unfold is_allowed
    rw [hd1]

set_option maxRecDepth 100000 in
theorem c3_disallow_prefix_amended_witness :
    is_allowed (parseLines ([] ++ "Allow: /a".data ::
        ["User-agent: *".data, "Disallow: /a".data])) "http://e.x/a/b"
      = is_allowed (parseLines ([] ++ ["User-agent: *".data, "Disallow: /a".data]))
          "http://e.x/a/b" :=
  (c3_disallow_prefix_amended "User-agent: *" "http://e.x/a/b" []
    ["User-agent: *".data, "Disallow: /a".data] "Allow: /a".data (by decide)).2.2

theorem lowerL_idem (l : List Char) : lowerL (lowerL l) = lowerL l := by
  unfold lowerL
  rw [List.map_map]
  exact List.map_congr_left (fun c _ => pyLower_idem c)

theorem lowerL_eq_self (l : List Char) (h : ∀ x ∈ l, pyLower x = x) : lowerL l = l := by
  unfold lowerL
  exact List.map_congr_left (fun c hc => h c hc) |>.trans (List.map_id l)

theorem isAsciiAlpha_toNat {c : Char} (h : isAsciiAlpha c = true) :
    (65 ≤ c.toNat ∧ c.toNat ≤ 90) ∨ (97 ≤ c.toNat ∧ c.toNat ≤ 122) := by
  unfold isAsciiAlpha at h
  simpa using h

theorem schemeChar_toNat_mem {c : Char} (h : schemeChar c = true) :
    (65 ≤ c.toNat ∧ c.toNat ≤ 90) ∨ (97 ≤ c.toNat ∧ c.toNat ≤ 122) ∨
    (48 ≤ c.toNat ∧ c.toNat ≤ 57) ∨ c.toNat = 43 ∨ c.toNat = 45 ∨ c.toNat = 46 := by
  unfold schemeChar isAsciiAlpha at h
  simp only [decide_eq_true_eq, Bool.or_eq_true] at h
  rcases h with h | h | h | h | h
  · rcases h with h | h
    · exact Or.inl h
    · exact Or.inr (Or.inl h)
  · exact Or.inr (Or.inr (Or.inl h))
  · subst h; right; right; right; left; rfl
  · subst h; right; right; right; right; left; rfl
  · subst h; right; right; right; right; right; rfl

theorem char_ne_of_toNat_ne {c d : Char} (h : c.toNat ≠ d.toNat) : c ≠ d :=
  fun he => h (by rw [he])

theorem p32_pyLower (c : Char) :
    decide ((pyLower c).toNat ≤ 32) = decide (c.toNat ≤ 32) := by
  rw [decide_eq_decide, toNat_pyLower]
  split <;> omega

theorem notUnsafe_pyLower (c : Char) :
    (¬(pyLower c = '\t' ∨ pyLower c = '\r' ∨ pyLower c = '\n') : Bool)
      = (¬(c = '\t' ∨ c = '\r' ∨ c = '\n') : Bool) := by
  rw [decide_eq_decide, pyLower_eq_low_iff (by decide), pyLower_eq_low_iff (by decide),
    pyLower_eq_low_iff (by decide)]

theorem netlocDelim_pyLower (c : Char) : netlocDelim (pyLower c) = netlocDelim c := by
  unfold netlocDelim
  rw [decide_eq_decide, pyLower_eq_low_iff (by decide), pyLower_eq_low_iff (by decide),
    pyLower_eq_low_iff (by decide)]

theorem colon_pyLower (c : Char) : decide (pyLower c = ':') = decide (c = ':') := by
  rw [decide_eq_decide]
  exact pyLower_eq_low_iff (by decide)

theorem hash_pyLower (c : Char) : decide (pyLower c = '#') = decide (c = '#') := by
  rw [decide_eq_decide]
  exact pyLower_eq_low_iff (by decide)

theorem quest_pyLower (c : Char) : decide (pyLower c = '?') = decide (c = '?') := by
  rw [decide_eq_decide]
  exact pyLower_eq_low_iff (by decide)

theorem slash_pyLower (c : Char) : decide (pyLower c = '/') = decide (c = '/') := by
  rw [decide_eq_decide]
  exact pyLower_eq_low_iff (by decide)

theorem semi_pyLower (c : Char) : decide (pyLower c = ';') = decide (c = ';') := by
  rw [decide_eq_decide]
  exact pyLower_eq_low_iff (by decide)

theorem preClean_lower (l : List Char) : preClean (lowerL l) = lowerL (preClean l) := by
  unfold preClean
  rw [show (lowerL l) = l.map pyLower from rfl, List.dropWhile_map, List.filter_map]
  have h1 : ((fun c : Char => decide (c.toNat ≤ 32)) ∘ pyLower)
      = (fun c : Char => decide (c.toNat ≤ 32)) := funext fun c => p32_pyLower c
  have h2 : ((fun c : Char => (¬(c = '\t' ∨ c = '\r' ∨ c = '\n') : Bool)) ∘ pyLower)
      = (fun c : Char => (¬(c = '\t' ∨ c = '\r' ∨ c = '\n') : Bool)) :=
    funext fun c => notUnsafe_pyLower c
  rw [h1, h2]
  rfl

theorem schemeSplit_lower (l : List Char) :
    schemeSplit (lowerL l) = (schemeSplit l).map (fun x => (x.1, lowerL x.2)) := by
  unfold schemeSplit
  rw [splitFirst_map_pyLower _ (fun c => colon_pyLower c)]
  cases hsp : splitFirst (fun c => decide (c = ':')) l with
  | none => rfl
  | some x =>
    obtain ⟨before, after⟩ := x
    dsimp only [Option.map_some]
    cases before with
    | nil => rfl
    | cons c rest =>
      show (if isAsciiAlpha (pyLower c) ∧ (lowerL rest).all schemeChar
          then some (lowerL (pyLower c :: lowerL rest), lowerL after) else none)
        = ((if isAsciiAlpha c ∧ rest.all schemeChar
          then some (lowerL (c :: rest), after) else none).map (fun x => (x.1, lowerL x.2)))
      rw [isAsciiAlpha_pyLower]
      have hall : (lowerL rest).all schemeChar = rest.all schemeChar := by
        unfold lowerL
        rw [List.all_map]
        have : (schemeChar ∘ pyLower) = schemeChar := funext fun c => schemeChar_pyLower c
        rw [this]
      rw [hall]
      by_cases hc : isAsciiAlpha c = true ∧ rest.all schemeChar = true
      · rw [if_pos (by simpa using hc), if_pos (by simpa using hc)]
        show some _ = some _
        congr 1
        show (lowerL (pyLower c :: lowerL rest), lowerL after)
          = ((lowerL (c :: rest) : List Char), lowerL after)
        congr 1
        show lowerL (lowerL (c :: rest)) = lowerL (c :: rest)
        exact lowerL_idem _
      · rw [if_neg (by simpa using hc), if_neg (by simpa using hc)]
        rfl

theorem lowerL_take (n : Nat) (l : List Char) : (lowerL l).take n = lowerL (l.take n) :=
  (List.map_take pyLower l n).symm

theorem lowerL_drop (n : Nat) (l : List Char) : (lowerL l).drop n = lowerL (l.drop n) :=
  (List.map_drop pyLower l n).symm

theorem lowerL_eq_slashes (y : List Char) : lowerL y = ['/', '/'] ↔ y = ['/', '/'] := by
  cases y with
  | nil => simp [lowerL]
  | cons a y1 =>
    cases y1 with
    | nil =>
      simp only [lowerL, List.map_cons, List.map_nil]
      constructor <;> intro h <;> exact absurd (congrArg List.length h) (by simp)
    | cons b y2 =>
      show pyLower a :: pyLower b :: lowerL y2 = ['/', '/'] ↔ a :: b :: y2 = ['/', '/']
      constructor
      · intro h
        injection h with h1 h
        injection h with h2 h
        rw [(pyLower_eq_low_iff (by decide)).mp h1, (pyLower_eq_low_iff (by decide)).mp h2,
          show y2 = [] from by simpa [lowerL] using h]
      · intro h
        injection h with h1 h
        injection h with h2 h
        subst h1
        subst h2
        subst h
        rfl

theorem notNetlocDelim_comp :
    ((fun c => (¬netlocDelim c : Bool)) ∘ pyLower) = (fun c => (¬netlocDelim c : Bool)) := by
  funext c
  show (¬netlocDelim (pyLower c) : Bool) = (¬netlocDelim c : Bool)
  rw [decide_eq_decide, netlocDelim_pyLower]

theorem noneStage_lower (d : Char) (hd : d.toNat < 65) (m : List Char) :
    noneStage (fun c => c = d) (lowerL m)
      = (lowerL (noneStage (fun c => c = d) m).1, lowerL (noneStage (fun c => c = d) m).2) := by
  unfold noneStage
  rw [splitFirst_map_pyLower _
    (fun c => by rw [decide_eq_decide]; exact pyLower_eq_low_iff hd)]
  cases splitFirst (fun c => decide (c = d)) m with
  | none => rfl
  | some x => rfl

theorem netStage_lower (m : List Char) :
    (if (lowerL m).take 2 = ['/', '/'] then
      (((lowerL m).drop 2).takeWhile (fun c => ¬netlocDelim c),
       ((lowerL m).drop 2).dropWhile (fun c => ¬netlocDelim c))
    else ([], lowerL m))
    = (lowerL (if m.take 2 = ['/', '/'] then
        ((m.drop 2).takeWhile (fun c => ¬netlocDelim c),
         (m.drop 2).dropWhile (fun c => ¬netlocDelim c))
      else ([], m)).1,
       lowerL (if m.take 2 = ['/', '/'] then
        ((m.drop 2).takeWhile (fun c => ¬netlocDelim c),
         (m.drop 2).dropWhile (fun c => ¬netlocDelim c))
      else ([], m)).2) := by
  have hcond : ((lowerL m).take 2 = ['/', '/']) ↔ (m.take 2 = ['/', '/']) := by
    rw [lowerL_take]
    exact lowerL_eq_slashes _
  by_cases hc : m.take 2 = ['/', '/']
  · rw [if_pos (hcond.mpr hc), if_pos hc]
    rw [lowerL_drop]
    show ((lowerL (m.drop 2)).takeWhile _, (lowerL (m.drop 2)).dropWhile _) = _
    unfold lowerL
    rw [List.takeWhile_map, List.dropWhile_map, notNetlocDelim_comp]
  · rw [if_neg (fun h => hc (hcond.mp h)), if_neg hc]
    rfl

theorem urlsplitL_lower (l : List Char) :
    urlsplitL (lowerL l) = ⟨(urlsplitL l).scheme, lowerL (urlsplitL l).netloc,
      lowerL (urlsplitL l).path, lowerL (urlsplitL l).query, lowerL (urlsplitL l).fragment⟩ := by
  unfold urlsplitL
  dsimp only
  rw [preClean_lower, schemeSplit_lower]
  cases hss : schemeSplit (preClean l) with
  | none =>
    dsimp only [Option.map_none']
    rw [netStage_lower]
    rw [noneStage_lower '#' (by decide), noneStage_lower '?' (by decide)]
  | some x =>
    obtain ⟨a, m⟩ := x
    dsimp only [Option.map_some']
    rw [netStage_lower]
    rw [noneStage_lower '#' (by decide), noneStage_lower '?' (by decide)]

theorem lowerL_reverse (l : List Char) : (lowerL l).reverse = lowerL l.reverse :=
  (List.map_reverse pyLower l).symm

theorem splitLastSlash_lower (l : List Char) :
    splitLastSlash (lowerL l) = (splitLastSlash l).map (fun x => (lowerL x.1, lowerL x.2)) := by
  unfold splitLastSlash
  rw [lowerL_reverse, splitFirst_map_pyLower _ (fun c => slash_pyLower c)]
  cases splitFirst (fun c => decide (c = '/')) l.reverse with
  | none => rfl
  | some x =>
    obtain ⟨rb, ra⟩ := x
    dsimp only [Option.map_some']
    rw [lowerL_reverse, lowerL_reverse]

theorem lowerL_append (a b : List Char) : lowerL (a ++ b) = lowerL a ++ lowerL b :=
  List.map_append pyLower a b

theorem splitparams_lower (t : List Char) :
    splitparams (lowerL t) = lowerL (splitparams t) := by
  unfold splitparams
  rw [splitLastSlash_lower]
  cases hsl : splitLastSlash t with
  | none =>
    dsimp only [Option.map_none']
    rw [splitFirst_map_pyLower _ (fun c => semi_pyLower c)]
    cases splitFirst (fun c => decide (c = ';')) t with
    | none => rfl
    | some x => rfl
  | some ab =>
    obtain ⟨a, b⟩ := ab
    dsimp only [Option.map_some']
    rw [splitFirst_map_pyLower _ (fun c => semi_pyLower c)]
    cases splitFirst (fun c => decide (c = ';')) b with
    | none => rfl
    | some x =>
      obtain ⟨c, r⟩ := x
      dsimp only [Option.map_some']
      rw [lowerL_append]
      rfl

theorem lowerL_contains (l : List Char) {c : Char} (hc : c.toNat < 65) :
    (lowerL l).contains c = l.contains c := by
  induction l with
  | nil => rfl
  | cons a t ih =>
    show (pyLower a :: lowerL t).contains c = _
    rw [List.contains_cons, List.contains_cons, ih]
    congr 1
    show decide (c = pyLower a) = decide (c = a)
    rw [decide_eq_decide]
    constructor
    · intro h
      exact ((pyLower_eq_low_iff hc).mp h.symm).symm
    · intro h
      subst h
      exact ((pyLower_eq_low_iff hc).mpr rfl).symm

theorem urlparseL_lower (l : List Char) :
    urlparseL (lowerL l) = ⟨(urlparseL l).scheme, lowerL (urlparseL l).netloc,
      lowerL (urlparseL l).path, lowerL (urlparseL l).query, lowerL (urlparseL l).fragment⟩ := by
  unfold urlparseL
  dsimp only
  rw [urlsplitL_lower]
  cases hU : urlsplitL l with
  | mk s n p q f =>
    dsimp only
    by_cases hc : usesParams.contains s = true ∧ p.contains ';' = true
    · rw [if_pos (⟨hc.1, by
          show (lowerL p).contains ';' = true
          rw [lowerL_contains _ (by decide)]
          exact hc.2⟩ :
            usesParams.contains s = true ∧ (lowerL p).contains ';' = true),
        if_pos hc]
      dsimp only
      rw [splitparams_lower]
    · rw [if_neg (fun h => hc ⟨h.1, by
          rw [← lowerL_contains p (by decide)]
          exact h.2⟩),
        if_neg hc]

theorem splitFirst_none_forall {p : Char → Bool} {l : List Char}
    (h : splitFirst p l = none) : ∀ c ∈ l, p c = false := by
  induction l with
  | nil => intro c hc; cases hc
  | cons c cs ih =>
    unfold splitFirst at h
    by_cases hc : p c
    · rw [if_pos hc] at h
      cases h
    · rw [if_neg hc] at h
      intro x hx
      rcases List.mem_cons.mp hx with hx | hx
      · subst hx
        simpa using hc
      · exact ih (by
          cases hs : splitFirst p cs
          · rfl
          · rw [hs] at h; cases h) x hx

theorem noneStage_before_not (p : Char → Bool) (m : List Char) :
    ∀ x ∈ (noneStage p m).1, p x = false := by
  unfold noneStage
  cases hs : splitFirst p m with
  | none =>
    intro x hx
    exact splitFirst_none_forall hs x hx
  | some y =>
    obtain ⟨a, b⟩ := y
    intro x hx
    exact (splitFirst_before_not hs).1 x hx

theorem noneStage_before_sub (p : Char → Bool) (m : List Char) :
    ∀ x ∈ (noneStage p m).1, x ∈ m := by
  unfold noneStage
  cases hs : splitFirst p m with
  | none => intro x hx; exact hx
  | some y =>
    obtain ⟨a, b⟩ := y
    intro x hx
    obtain ⟨_, d, _, hdec⟩ := splitFirst_before_not hs
    rw [hdec]
    exact List.mem_append.mpr (Or.inl hx)

theorem urlsplit_path_clean (l : List Char) :
    ∀ x ∈ (urlsplitL l).path, x ≠ '#' ∧ x ≠ '?' := by
  unfold urlsplitL
  dsimp only
  intro x hx
  constructor
  · have hsub := noneStage_before_sub (fun c => c = '?') _ x hx
    have := noneStage_before_not (fun c => c = '#') _ x hsub
    simpa using this
  · have := noneStage_before_not (fun c => c = '?') _ x hx
    simpa using this

theorem splitLastSlash_decomp {l a b : List Char} (h : splitLastSlash l = some (a, b)) :
    l = a ++ '/' :: b := by
  unfold splitLastSlash at h
  cases hs : splitFirst (fun c => decide (c = '/')) l.reverse with
  | none => rw [hs] at h; cases h
  | some y =>
    obtain ⟨rb, ra⟩ := y
    rw [hs] at h
    injection h with h
    injection h with h1 h2
    obtain ⟨_, d, hd, hdec⟩ := splitFirst_before_not hs
    have hdc : d = '/' := by simpa using hd
    subst hdc
    have : l = (rb ++ '/' :: ra).reverse := by rw [← hdec, List.reverse_reverse]
    rw [this, List.reverse_append, List.reverse_cons, ← h1, ← h2]
    simp

theorem splitparams_mem {l : List Char} : ∀ x ∈ splitparams l, x ∈ l := by
  unfold splitparams
  cases hsl : splitLastSlash l with
  | none =>
    dsimp only
    cases hss : splitFirst (fun c => decide (c = ';')) l with
    | none => intro x hx; exact hx
    | some y =>
      obtain ⟨c, r⟩ := y
      dsimp only
      intro x hx
      obtain ⟨_, d, _, hdec⟩ := splitFirst_before_not hss
      rw [hdec]
      exact List.mem_append.mpr (Or.inl hx)
  | some ab =>
    obtain ⟨a, b⟩ := ab
    dsimp only
    have hl := splitLastSlash_decomp hsl
    cases hss : splitFirst (fun c => decide (c = ';')) b with
    | none => intro x hx; exact hx
    | some y =>
      obtain ⟨c, r⟩ := y
      dsimp only
      intro x hx
      rw [hl]
      obtain ⟨_, d, _, hdec⟩ := splitFirst_before_not hss
      rcases List.mem_append.mp hx with hx | hx
      · exact List.mem_append.mpr (Or.inl hx)
      · rcases List.mem_cons.mp hx with hx | hx
        · subst hx
          exact List.mem_append.mpr (Or.inr (List.mem_cons_self _ _))
        · refine List.mem_append.mpr (Or.inr (List.mem_cons_of_mem _ ?_))
          rw [hdec]
          exact List.mem_append.mpr (Or.inl hx)

theorem urlparse_path_clean (l : List Char) :
    ∀ x ∈ (urlparseL l).path, x ≠ '#' ∧ x ≠ '?' := by
  unfold urlparseL
  dsimp only
  split
  · intro x hx
    exact urlsplit_path_clean l x (splitparams_mem x hx)
  · exact urlsplit_path_clean l

theorem urlsplit_netloc_clean (l : List Char) :
    ∀ x ∈ (urlsplitL l).netloc, netlocDelim x = false := by
  unfold urlsplitL
  dsimp only
  split
  · intro x hx
    have := List.mem_takeWhile_imp hx
    simpa using this
  · intro x hx
    cases hx

theorem schemeSplit_some_chars {l s r : List Char} (h : schemeSplit l = some (s, r)) :
    ∀ x ∈ s, schemeChar x = true := by
  unfold schemeSplit at h
  cases hs : splitFirst (fun c => decide (c = ':')) l with
  | none =>
    rw [hs] at h
    cases h
  | some y =>
    obtain ⟨before, after⟩ := y
    rw [hs] at h
    cases before with
    | nil => cases h
    | cons c rest =>
      dsimp only at h
      split at h
      · rename_i hcond
        injection h with h
        injection h with h1 h2
        subst h1
        intro x hx
        rcases List.mem_map.mp hx with ⟨z, hz, hzx⟩
        subst hzx
        rw [schemeChar_pyLower]
        rcases List.mem_cons.mp hz with hz | hz
        · subst hz
          unfold schemeChar
          simp only [Bool.or_eq_true, decide_eq_true_eq]
          left
          simpa using hcond.1
        · exact (List.all_eq_true.mp (by simpa using hcond.2)) z hz
      · cases h

theorem urlsplit_scheme_chars (l : List Char) :
    ∀ x ∈ (urlsplitL l).scheme, schemeChar x = true := by
  unfold urlsplitL
  dsimp only
  cases hss : schemeSplit (preClean l) with
  | none =>
    dsimp only
    intro x hx
    cases hx
  | some y =>
    obtain ⟨s, r⟩ := y
    dsimp only
    exact schemeSplit_some_chars hss

theorem mem_removePrefixL {x : Char} {p l : List Char} (h : x ∈ removePrefixL p l) : x ∈ l := by
  unfold removePrefixL at h
  split at h
  · exact List.drop_subset _ _ h
  · exact h

theorem mem_rstripSlash {x : Char} {l : List Char} (h : x ∈ rstripSlash l) : x ∈ l := by
  unfold rstripSlash at h
  rw [List.mem_reverse] at h
  have h2 := List.dropWhile_subset _ h
  rwa [List.mem_reverse] at h2

theorem urlparse_scheme_chars (l : List Char) :
    ∀ x ∈ (urlparseL l).scheme, schemeChar x = true := by
  unfold urlparseL
  dsimp only
  split
  · exact urlsplit_scheme_chars l
  · exact urlsplit_scheme_chars l

theorem urlparse_netloc_clean (l : List Char) :
    ∀ x ∈ (urlparseL l).netloc, netlocDelim x = false := by
  unfold urlparseL
  dsimp only
  split
  · exact urlsplit_netloc_clean l
  · exact urlsplit_netloc_clean l

/-- C1 amended: the deduplication key is assembled from the parse of the
original URL with each component lowercased — lowercased scheme, lowercased
host with one leading `www.` stripped, lowercased path (parameters dropped
by the parse, all trailing `/` removed) — and the key never contains a query
or fragment delimiter. -/
theorem c1_dedup_key_amended (u : String) :
    _normalize_url u = String.mk ((urlparseL u.data).scheme ++ "://".data
      ++ removePrefixL "www.".data (lowerL (urlparseL u.data).netloc)
      ++ rstripSlash (lowerL (urlparseL u.data).path)) ∧
    ¬('?' ∈ (_normalize_url u).data) ∧ ¬('#' ∈ (_normalize_url u).data) := by
  have hkey : _normalize_url u = String.mk ((urlparseL u.data).scheme ++ "://".data
      ++ removePrefixL "www.".data (lowerL (urlparseL u.data).netloc)
      ++ rstripSlash (lowerL (urlparseL u.data).path)) := by
    unfold _normalize_url
    dsimp only
    rw [urlparseL_lower]
  refine ⟨hkey, ?_, ?_⟩
  · rw [hkey]
    intro hmem
    rcases List.mem_append.mp hmem with hmem | hmem
    · rcases List.mem_append.mp hmem with hmem | hmem
      · rcases List.mem_append.mp hmem with hmem | hmem
        · have := schemeChar_toNat_mem (urlparse_scheme_chars u.data _ hmem)
          revert this
          decide
        · exact absurd hmem (by decide)
      · have hz := mem_removePrefixL hmem
        rcases List.mem_map.mp hz with ⟨z, hzm, hzx⟩
        have hzq : z = '?' := (pyLower_eq_low_iff (by decide)).mp hzx
        subst hzq
        have := urlparse_netloc_clean u.data _ hzm
        revert this
        decide
    · have hz := mem_rstripSlash hmem
      rcases List.mem_map.mp hz with ⟨z, hzm, hzx⟩
      have hzq : z = '?' := (pyLower_eq_low_iff (by decide)).mp hzx
      subst hzq
      exact (urlparse_path_clean u.data _ hzm).2 rfl
  · rw [hkey]
    intro hmem
    rcases List.mem_append.mp hmem with hmem | hmem
    · rcases List.mem_append.mp hmem with hmem | hmem
      · rcases List.mem_append.mp hmem with hmem | hmem
        · have := schemeChar_toNat_mem (urlparse_scheme_chars u.data _ hmem)
          revert this
          decide
        · exact absurd hmem (by decide)
      · have hz := mem_removePrefixL hmem
        rcases List.mem_map.mp hz with ⟨z, hzm, hzx⟩
        have hzq : z = '#' := (pyLower_eq_low_iff (by decide)).mp hzx
        subst hzq
        have := urlparse_netloc_clean u.data _ hzm
        revert this
        decide
    · have hz := mem_rstripSlash hmem
      rcases List.mem_map.mp hz with ⟨z, hzm, hzx⟩
      have hzq : z = '#' := (pyLower_eq_low_iff (by decide)).mp hzx
      subst hzq
      exact (urlparse_path_clean u.data _ hzm).1 rfl

theorem contains_eq_false_of_not_mem {l : List Char} {c : Char} (h : c ∈ l → False) :
    l.contains c = false := by
  simpa using h

theorem urlsplitL_of_decomp (l s n t : List Char) (c : Char) (srest : List Char)
    (hs : s = c :: srest)
    (hca : isAsciiAlpha c = true)
    (hsc : srest.all schemeChar = true)
    (hslow : lowerL s = s)
    (hn : ∀ x ∈ n, netlocDelim x = false)
    (ht0 : t = [] ∨ ∃ t2, t = '/' :: t2)
    (hth : ¬ '#' ∈ t) (htq : ¬ '?' ∈ t)
    (hclean : preClean l = s ++ ':' :: '/' :: '/' :: (n ++ t)) :
    urlsplitL l = ⟨s, n, t, [], []⟩ := by
  have hschars : ∀ x ∈ s, (fun c => decide (c = ':')) x = false := by
    intro x hx
    rw [hs] at hx
    apply decide_eq_false
    intro he
    subst he
    rcases List.mem_cons.mp hx with hx | hx
    · subst hx
      exact absurd hca (by decide)
    · have := schemeChar_toNat_mem ((List.all_eq_true.mp hsc) _ hx)
      revert this
      decide
  have hss : schemeSplit (s ++ ':' :: '/' :: '/' :: (n ++ t))
      = some (s, '/' :: '/' :: (n ++ t)) := by
    unfold schemeSplit
    rw [splitFirst_append _ hschars (by decide)]
    rw [hs]
    dsimp only
    rw [if_pos ⟨hca, hsc⟩]
    rw [← hs, hslow]
  have hnall : ∀ x ∈ n, (fun c => (¬netlocDelim c : Bool)) x = true := by
    intro x hx
    simp [hn x hx]
  have htw : (n ++ t).takeWhile (fun c => (¬netlocDelim c : Bool)) = n := by
    rw [List.takeWhile_append_of_pos hnall]
    rcases ht0 with ht | ⟨t2, ht⟩
    · rw [ht]
      simp
    · rw [ht, List.takeWhile_cons]
      rw [if_neg (by decide)]
      simp
  have hdw : (n ++ t).dropWhile (fun c => (¬netlocDelim c : Bool)) = t := by
    rw [List.dropWhile_append_of_pos hnall]
    rcases ht0 with ht | ⟨t2, ht⟩
    · rw [ht]
      rfl
    · rw [ht, List.dropWhile_cons]
      rw [if_neg (by decide)]
  have h3 : noneStage (fun c => c = '#') t = (t, []) := by
    unfold noneStage
    rw [splitFirst_eq_none (by
      intro x hx
      apply decide_eq_false
      intro he
      subst he
      exact hth hx)]
  have h4 : noneStage (fun c => c = '?') t = (t, []) := by
    unfold noneStage
    rw [splitFirst_eq_none (by
      intro x hx
      apply decide_eq_false
      intro he
      subst he
      exact htq hx)]
  unfold urlsplitL
  dsimp only
  rw [hclean, hss]
  dsimp only
  rw [if_pos (show ('/' :: '/' :: (n ++ t)).take 2 = ['/', '/'] from rfl)]
  rw [show ('/' :: '/' :: (n ++ t)).drop 2 = n ++ t from rfl]
  rw [htw, hdw, h3]
  dsimp only
  rw [h4]

theorem urlparseL_of_decomp (l s n t : List Char) (c : Char) (srest : List Char)
    (hs : s = c :: srest)
    (hca : isAsciiAlpha c = true)
    (hsc : srest.all schemeChar = true)
    (hslow : lowerL s = s)
    (hn : ∀ x ∈ n, netlocDelim x = false)
    (ht0 : t = [] ∨ ∃ t2, t = '/' :: t2)
    (hth : ¬ '#' ∈ t) (htq : ¬ '?' ∈ t) (hts : ¬ ';' ∈ t)
    (hclean : preClean l = s ++ ':' :: '/' :: '/' :: (n ++ t)) :
    urlparseL l = ⟨s, n, t, [], []⟩ := by
  unfold urlparseL
  rw [urlsplitL_of_decomp l s n t c srest hs hca hsc hslow hn ht0 hth htq hclean]
  rw [if_neg (fun hcond => by
    have h2 := hcond.2
    rw [show (⟨s, n, t, [], []⟩ : ParseResult).path = t from rfl] at h2
    rw [contains_eq_false_of_not_mem hts] at h2
    cases h2)]

theorem preClean_subset {x : Char} {l : List Char} (h : x ∈ preClean l) : x ∈ l := by
  unfold preClean at h
  have h2 := List.mem_of_mem_filter h
  exact List.dropWhile_subset _ h2

theorem preClean_pred {x : Char} {l : List Char} (h : x ∈ preClean l) :
    (¬(x = '\t' ∨ x = '\r' ∨ x = '\n') : Bool) = true := by
  unfold preClean at h
  exact (List.mem_filter.mp h).2

theorem mem_lowerL_fixed {x : Char} {l : List Char} (h : x ∈ lowerL l) : pyLower x = x := by
  rcases List.mem_map.mp h with ⟨z, _, hz⟩
  rw [← hz]
  exact pyLower_idem z

theorem dropWhile_dropWhile (p : Char → Bool) (l : List Char) :
    (l.dropWhile p).dropWhile p = l.dropWhile p := by
  cases h : l.dropWhile p with
  | nil => rfl
  | cons a r =>
    have hhead := List.head?_dropWhile_not p l
    rw [h] at hhead
    simp only [List.head?_cons] at hhead
    rw [List.dropWhile_cons, if_neg (by rw [hhead]; exact Bool.false_ne_true)]

theorem rstripSlash_idem (l : List Char) : rstripSlash (rstripSlash l) = rstripSlash l := by
  unfold rstripSlash
  rw [List.reverse_reverse, dropWhile_dropWhile]

theorem rstrip_decomp (l : List Char) :
    ∃ m, l = rstripSlash l ++ m ∧ ∀ x ∈ m, x = '/' := by
  refine ⟨(l.reverse.takeWhile (fun c => c = '/')).reverse, ?_, ?_⟩
  · unfold rstripSlash
    rw [← List.reverse_append, List.takeWhile_append_dropWhile, List.reverse_reverse]
  · intro x hx
    rw [List.mem_reverse] at hx
    have := List.mem_takeWhile_imp hx
    simpa using this

theorem rstripSlash_shape {t : List Char} (h : t = [] ∨ ∃ t2, t = '/' :: t2) :
    rstripSlash t = [] ∨ ∃ t2, rstripSlash t = '/' :: t2 := by
  rcases h with h | ⟨t2, h⟩
  · subst h
    left
    rfl
  · obtain ⟨m, hm, _⟩ := rstrip_decomp t
    cases hr : rstripSlash t with
    | nil => exact Or.inl rfl
    | cons a r =>
      right
      refine ⟨r, ?_⟩
      rw [hr] at hm
      rw [h] at hm
      injection hm with h1 _
      rw [h1]

theorem mem_rstripSlash_of {x : Char} {l : List Char} (h : x ∈ rstripSlash l) : x ∈ l :=
  mem_rstripSlash h

theorem preClean_cons_eq_self {a : Char} {r : List Char} (ha : ¬ a.toNat ≤ 32)
    (hk : ∀ x ∈ a :: r, (¬(x = '\t' ∨ x = '\r' ∨ x = '\n') : Bool) = true) :
    preClean (a :: r) = a :: r := by
  unfold preClean
  rw [List.dropWhile_cons, if_neg (by simpa using ha)]
  exact List.filter_eq_self.mpr hk

theorem removePrefixL_eq_self {p l : List Char} (h : p.isPrefixOf l = false) :
    removePrefixL p l = l := by
  unfold removePrefixL
  rw [if_neg (by simp [h])]

/-- C9 amended: `_normalize_url` is idempotent on every URL whose lowercased,
whitespace-cleaned form decomposes as a valid scheme, `"://"`, a host free of
`/?#` that after one `www.` strip does not still start with `www.`, and a path
that is empty or starts with `/` and contains no `#`, `?` or `;`. -/
theorem c9_idempotent_amended (u : String) (s n t : List Char) (c : Char) (srest : List Char)
    (hs : s = c :: srest)
    (hca : isAsciiAlpha c = true)
    (hsc : srest.all schemeChar = true)
    (hn : ∀ x ∈ n, netlocDelim x = false)
    (ht0 : t = [] ∨ ∃ t2, t = '/' :: t2)
    (hth : ¬ '#' ∈ t) (htq : ¬ '?' ∈ t) (hts : ¬ ';' ∈ t)
    (hw : "www.".data.isPrefixOf (removePrefixL "www.".data n) = false)
    (hdecomp : preClean (lowerL u.data) = s ++ ':' :: '/' :: '/' :: (n ++ t)) :
    _normalize_url (_normalize_url u) = _normalize_url u := by
  have hmem1 : ∀ x ∈ s ++ ':' :: '/' :: '/' :: (n ++ t), x ∈ preClean (lowerL u.data) := by
    intro x hx
    rw [hdecomp]
    exact hx
  have hslow : lowerL s = s := by
    apply lowerL_eq_self
    intro x hx
    exact mem_lowerL_fixed (preClean_subset (hmem1 x (List.mem_append_left _ hx)))
  have key1 : urlparseL (lowerL u.data) = ⟨s, n, t, [], []⟩ :=
    urlparseL_of_decomp (lowerL u.data) s n t c srest hs hca hsc hslow hn ht0 hth htq hts hdecomp
  have hnu : _normalize_url u = String.mk
      (s ++ "://".data ++ removePrefixL "www.".data n ++ rstripSlash t) := by
    unfold _normalize_url
    dsimp only
    rw [key1]
  have hmem2 : ∀ x ∈ s ++ "://".data ++ removePrefixL "www.".data n ++ rstripSlash t,
      x ∈ s ++ ':' :: '/' :: '/' :: (n ++ t) := by
    intro x hx
    have hlit : ∀ y ∈ "://".data, y = ':' ∨ y = '/' := by decide
    simp only [List.mem_append, List.mem_cons]
    rcases List.mem_append.mp hx with hx | hx
    · rcases List.mem_append.mp hx with hx | hx
      · rcases List.mem_append.mp hx with hx | hx
        · exact Or.inl hx
        · rcases hlit x hx with h | h
          · exact Or.inr (Or.inl h)
          · exact Or.inr (Or.inr (Or.inl h))
      · exact Or.inr (Or.inr (Or.inr (Or.inr (Or.inl (mem_removePrefixL hx)))))
    · exact Or.inr (Or.inr (Or.inr (Or.inr (Or.inr (mem_rstripSlash hx)))))
  have hfix2 : ∀ x ∈ s ++ "://".data ++ removePrefixL "www.".data n ++ rstripSlash t,
      pyLower x = x :=
    fun x hx => mem_lowerL_fixed (preClean_subset (hmem1 x (hmem2 x hx)))
  have hkeep : ∀ x ∈ s ++ "://".data ++ removePrefixL "www.".data n ++ rstripSlash t,
      (¬(x = '\t' ∨ x = '\r' ∨ x = '\n') : Bool) = true :=
    fun x hx => preClean_pred (hmem1 x (hmem2 x hx))
  have hlower2 : lowerL (s ++ "://".data ++ removePrefixL "www.".data n ++ rstripSlash t)
      = s ++ "://".data ++ removePrefixL "www.".data n ++ rstripSlash t :=
    lowerL_eq_self _ hfix2
  have hctoNat : ¬ c.toNat ≤ 32 := by
    have hca2 := hca
    simp only [isAsciiAlpha, decide_eq_true_eq] at hca2
    omega
  have hshape : s ++ "://".data ++ removePrefixL "www.".data n ++ rstripSlash t
      = c :: (srest ++ "://".data ++ removePrefixL "www.".data n ++ rstripSlash t) := by
    rw [hs]
    simp
  have hpre2 : preClean (s ++ "://".data ++ removePrefixL "www.".data n ++ rstripSlash t)
      = s ++ "://".data ++ removePrefixL "www.".data n ++ rstripSlash t := by
    rw [hshape]
    apply preClean_cons_eq_self hctoNat
    rw [← hshape]
    exact hkeep
  have hassoc : s ++ "://".data ++ removePrefixL "www.".data n ++ rstripSlash t
      = s ++ ':' :: '/' :: '/' :: (removePrefixL "www.".data n ++ rstripSlash t) := by
    rw [show "://".data = [':', '/', '/'] from rfl]
    simp [List.append_assoc]
  have key2 : urlparseL (s ++ "://".data ++ removePrefixL "www.".data n ++ rstripSlash t)
      = ⟨s, removePrefixL "www.".data n, rstripSlash t, [], []⟩ := by
    apply urlparseL_of_decomp _ _ _ _ c srest hs hca hsc hslow
    · intro x hx
      exact hn x (mem_removePrefixL hx)
    · exact rstripSlash_shape ht0
    · intro hmem
      exact hth (mem_rstripSlash hmem)
    · intro hmem
      exact htq (mem_rstripSlash hmem)
    · intro hmem
      exact hts (mem_rstripSlash hmem)
    · rw [hpre2, hassoc]
  have hnv : _normalize_url (String.mk
        (s ++ "://".data ++ removePrefixL "www.".data n ++ rstripSlash t))
      = String.mk (s ++ "://".data
        ++ removePrefixL "www.".data (removePrefixL "www.".data n)
        ++ rstripSlash (rstripSlash t)) := by
    unfold _normalize_url
    dsimp only
    rw [hlower2, key2]
  rw [hnu, hnv, removePrefixL_eq_self hw, rstripSlash_idem]

set_option maxRecDepth 100000 in
/-- C9 amended witness: the amended idempotence theorem applied to the
concrete URL `http://www.Example.COM/About/`. -/
theorem c9_idempotent_amended_witness :
    _normalize_url (_normalize_url "http://www.Example.COM/About/")
      = _normalize_url "http://www.Example.COM/About/" :=
  c9_idempotent_amended "http://www.Example.COM/About/" "http".data
    "www.example.com".data "/about/".data 'h' "ttp".data rfl (by decide) (by decide)
    (by decide) (Or.inr ⟨"about/".data, rfl⟩) (by decide) (by decide) (by decide)
    (by decide) (by decide)
